import Mathlib

set_option maxHeartbeats 1000000

/-!
Shallow embedding of the documentation server (local-server.py).

The embedding covers:
* the path-resolution pipeline of load_doc_page, including the Python
  string/path primitives it uses (str.split, str.rstrip, os.path.normpath,
  os.path.join, os.path.commonpath, os.path.basename, os.path.realpath and
  os.path.exists abstracted as a filesystem record);
* the link rewriter LinkRewritingTreeProcessor.handle_element, including
  urllib.parse.urlsplit and urlunsplit (modelled from CPython 3.11);
* the bleach sanitizer configuration (whitelists taken verbatim from the
  source; the cleaning pass itself is modelled from the spec, as bleach is a
  third-party library whose code is not part of this repository).

Strings are handled through their underlying character lists, so that every
operation is executable and Python semantics (single-character split,
rstrip, slicing) can be mirrored exactly.
-/

namespace DocServer

/-! ### Character-list primitives mirroring Python string methods -/

/-- Python s.split(sep) for a one-character separator: "".split is [""],
trailing separators produce trailing empty segments. -/
def splitChar (sep : Char) : List Char → List (List Char)
  | [] => [[]]
  | c :: cs =>
    if c = sep then [] :: splitChar sep cs
    else
      match splitChar sep cs with
      | w :: ws => (c :: w) :: ws
      | [] => [[c]]

/-- Python s.rstrip(sep) for a one-character strip set: remove every
trailing occurrence of sep. -/
def dropTrailing (sep : Char) : List Char → List Char
  | [] => []
  | c :: cs =>
    match dropTrailing sep cs with
    | [] => if c = sep then [] else [c]
    | r => c :: r

/-- Python sep.join(parts) for a one-character separator. -/
def joinComps (sep : Char) : List (List Char) → List Char
  | [] => []
  | [a] => a
  | a :: rest => a ++ sep :: joinComps sep rest

/-- Longest common prefix of two segment lists (what os.path.commonpath
computes with its min/max-and-scan loop over two paths). -/
def commonSegs : List (List Char) → List (List Char) → List (List Char)
  | a :: as', b :: bs => if a = b then a :: commonSegs as' bs else []
  | _, _ => []

/-! ### posixpath operations (modelled from CPython 3.11 posixpath.py) -/

/-- Python p.startswith("/") (equivalently p[:1] == "/"). -/
def isAbs (s : String) : Bool :=
  match s.data with
  | '/' :: _ => true
  | _ => false

/-- os.path.normpath for POSIX paths: collapse '//' and '.', resolve '..'
lexically, keep exactly-two leading slashes special. -/
def normpath (s : String) : String :=
  if s.data.isEmpty then "." else
  let slashes : Nat :=
    match s.data with
    | '/' :: '/' :: '/' :: _ => 1
    | '/' :: '/' :: _ => 2
    | '/' :: _ => 1
    | _ => 0
  let newComps := (splitChar '/' s.data).foldl (fun acc comp =>
    if comp = [] ∨ comp = ['.'] then acc
    else if comp ≠ ['.', '.'] ∨ (slashes = 0 ∧ acc = []) ∨
        (acc ≠ [] ∧ acc.getLast? = some ['.', '.']) then acc ++ [comp]
    else if acc ≠ [] then acc.dropLast else acc) []
  let out := List.replicate slashes '/' ++ joinComps '/' newComps
  if out.isEmpty then "." else String.mk out

/-- os.path.join for POSIX paths, two arguments. -/
def pyJoin (a b : String) : String :=
  if isAbs b then b
  else if a.data.isEmpty ∨ a.data.getLast? = some '/' then a ++ b
  else a ++ "/" ++ b

/-- os.path.basename: everything after the last slash. -/
def basename (s : String) : String :=
  String.mk ((splitChar '/' s.data).getLastD [])

/-- Segment list used by os.path.commonpath: split on '/' and drop empty
and '.' segments (note: '..' segments are kept; commonpath is lexical). -/
def cpSegs (s : String) : List (List Char) :=
  (splitChar '/' s.data).filter (fun c => decide (c ≠ [] ∧ c ≠ ['.']))

/-- os.path.commonpath restricted to two paths.  Python raises ValueError
when one path is absolute and the other relative; that case is modelled as
none (every call site in the program passes two absolute paths). -/
def commonpath2 (p q : String) : Option String :=
  if isAbs p ≠ isAbs q then none
  else
    some (String.mk ((if isAbs p then ['/'] else []) ++
      joinComps '/' (commonSegs (cpSegs p) (cpSegs q))))

/-- The spec notion of one absolute path being a descendant of (or equal
to) another: same absoluteness and the root's segments are a prefix of the
path's segments. -/
def isDescendant (p root : String) : Prop :=
  isAbs p = isAbs root ∧ cpSegs root <+: cpSegs p

instance (p root : String) : Decidable (isDescendant p root) := by
  unfold isDescendant
  exact instDecidableAnd

/-! ### The filesystem abstraction and load_doc_page -/

/-- Front-matter metadata: mapping from key to ordered list of values. -/
def Metadata := List (String × List String)
deriving DecidableEq

/-- The empty metadata mapping the code returns for every non-render
outcome. -/
def Metadata.empty : Metadata := []

/-- Failure of the filesystem read of an approved path (in Python an
uncaught OSError escaping load_doc_page). -/
inductive LoadError where
  | readFailure
deriving DecidableEq, Repr

instance {e a : Type} [DecidableEq e] [DecidableEq a] : DecidableEq (Except e a) := fun x y =>
  match x, y with
  | .ok u, .ok v =>
    if h : u = v then isTrue (by rw [h])
    else isFalse (by intro hh; injection hh; contradiction)
  | .error u, .error v =>
    if h : u = v then isTrue (by rw [h])
    else isFalse (by intro hh; injection hh; contradiction)
  | .ok _, .error _ => isFalse (by intro hh; injection hh)
  | .error _, .ok _ => isFalse (by intro hh; injection hh)

/-- The filesystem operations load_doc_page consumes: os.path.exists,
os.path.realpath and open(...).read() (read is none when the open fails). -/
structure FS where
  pathExists : String → Bool
  realpath : String → String
  readFile : String → Option String

/-- The body of the candidate loop of load_doc_page up to the file read:
skip a candidate that does not exist; otherwise resolve symlinks, then skip
it when its basename is README.md or when it is no longer inside the root
(each skip is a continue in the source). -/
def checkCandidate (fs : FS) (rootClean cand : String) : Option String :=
  if fs.pathExists cand = false then none
  else if basename (fs.realpath cand) = "README.md" then none
  else if commonpath2 (fs.realpath cand) rootClean ≠ some rootClean then none
  else some (fs.realpath cand)

/-- The candidate loop of load_doc_page: first candidate passing all
checks is opened and rendered; a failing open propagates; if no candidate
passes, the not-found value is returned. -/
def tryCandidates (fs : FS) (rootClean : String)
    (render : String → Metadata × String) :
    List String → Except LoadError (Metadata × Option String)
  | [] => .ok (Metadata.empty, none)
  | cand :: rest =>
    match checkCandidate fs rootClean cand with
    | none => tryCandidates fs rootClean render rest
    | some p =>
      match fs.readFile p with
      | none => .error .readFailure
      | some text =>
        let r := render text
        .ok (r.1, some r.2)

/-- base_path of load_doc_page: normpath(join(normpath(root), page.rstrip("/"))). -/
def basePathOf (root page : String) : String :=
  normpath (pyJoin (normpath root) (String.mk (dropTrailing '/' page.data)))

/-- potential_paths of load_doc_page: base_path + ".md", then
os.path.join(base_path, "index.md"). -/
def candidatesOf (root page : String) : List String :=
  [basePathOf root page ++ ".md", pyJoin (basePathOf root page) "index.md"]

/-- load_doc_page from local-server.py.  The fixed document root
(MARKDOWN_DIR) and the markdown-render-then-sanitize step (which maps the
file text to metadata and an HTML string) are parameters; everything else
follows the source line by line. -/
def load_doc_page (fs : FS) (root : String)
    (render : String → Metadata × String) (page : String) :
    Except LoadError (Metadata × Option String) :=
  if (splitChar '/' page.data).contains ['.', '.'] then .ok (Metadata.empty, none)
  else if commonpath2 (basePathOf root page) (normpath root) ≠ some (normpath root) then
    .ok (Metadata.empty, none)
  else if (splitChar '/' (dropTrailing '/' page.data)).any
      (fun part => part.head? = some '.') then
    .ok (Metadata.empty, none)
  else
    tryCandidates fs (normpath root) render (candidatesOf root page)


/-! ### Lemmas about splitChar and dropTrailing

The hidden-segment check of load_doc_page runs on the rstripped page, while
the spec speaks about segments of the original page; these lemmas show that
every nonempty segment of the original survives the rstrip. -/

theorem splitChar_cons_sep (sep : Char) (cs : List Char) :
    splitChar sep (sep :: cs) = [] :: splitChar sep cs := by
  simp [splitChar]

theorem splitChar_cons_of_ne (sep c : Char) (cs : List Char) (hc : ¬ c = sep)
    (w : List Char) (ws : List (List Char)) (h : splitChar sep cs = w :: ws) :
    splitChar sep (c :: cs) = (c :: w) :: ws := by
  simp only [splitChar, if_neg hc, h]

theorem splitChar_ne_nil (sep : Char) (l : List Char) : splitChar sep l ≠ [] := by
  cases l with
  | nil => simp [splitChar]
  | cons c cs =>
    by_cases hc : c = sep
    · rw [hc, splitChar_cons_sep]; simp
    · cases hs : splitChar sep cs with
      | nil =>
        simp only [splitChar, if_neg hc, hs]
        simp
      | cons w ws =>
        rw [splitChar_cons_of_ne sep c cs hc w ws hs]
        simp

theorem dropTrailing_cons_of_nil (sep c : Char) (cs : List Char)
    (h : dropTrailing sep cs = []) :
    dropTrailing sep (c :: cs) = if c = sep then [] else [c] := by
  simp only [dropTrailing, h]

theorem dropTrailing_cons_of_ne_nil (sep c : Char) (cs : List Char)
    (d : Char) (ds : List Char) (h : dropTrailing sep cs = d :: ds) :
    dropTrailing sep (c :: cs) = c :: d :: ds := by
  simp only [dropTrailing, h]

/-- Remove trailing empty entries from a segment list (proof helper; not
part of the program). -/
def dropTrailNil : List (List Char) → List (List Char)
  | [] => []
  | a :: as =>
    match dropTrailNil as with
    | [] => if a = [] then [] else [a]
    | r :: rs => a :: r :: rs

theorem dropTrailNil_cons_of_nil (a : List Char) (as : List (List Char))
    (h : dropTrailNil as = []) :
    dropTrailNil (a :: as) = if a = [] then [] else [a] := by
  simp only [dropTrailNil, h]

theorem dropTrailNil_cons_of_ne_nil (a : List Char) (as : List (List Char))
    (r : List Char) (rs : List (List Char)) (h : dropTrailNil as = r :: rs) :
    dropTrailNil (a :: as) = a :: r :: rs := by
  simp only [dropTrailNil, h]

theorem dropTrailNil_nil_iff (s : List (List Char)) :
    dropTrailNil s = [] ↔ ∀ a ∈ s, a = [] := by
  induction s with
  | nil => simp [dropTrailNil]
  | cons a as ih =>
    cases hr : dropTrailNil as with
    | nil =>
      rw [dropTrailNil_cons_of_nil a as hr]
      have has : ∀ b ∈ as, b = [] := ih.mp hr
      by_cases ha : a = []
      · simp only [if_pos ha]
        constructor
        · intro _ b hb
          rcases List.mem_cons.mp hb with hb1 | hb1
          · rw [hb1]; exact ha
          · exact has b hb1
        · intro _; trivial
      · simp only [if_neg ha]
        constructor
        · intro h; exact absurd h (by simp)
        · intro h; exact absurd (h a (by simp)) ha
    | cons r rs =>
      rw [dropTrailNil_cons_of_ne_nil a as r rs hr]
      constructor
      · intro h; exact absurd h (by simp)
      · intro h
        have h0 : dropTrailNil as = [] := ih.mpr (fun b hb => h b (by simp [hb]))
        rw [h0] at hr; exact absurd hr (by simp)

theorem dropTrailing_eq_nil_iff (sep : Char) (l : List Char) :
    dropTrailing sep l = [] ↔ ∀ a ∈ splitChar sep l, a = [] := by
  induction l with
  | nil => simp [dropTrailing, splitChar]
  | cons c cs ih =>
    by_cases hc : c = sep
    · rw [hc, splitChar_cons_sep]
      cases hd : dropTrailing sep cs with
      | nil =>
        rw [dropTrailing_cons_of_nil sep sep cs hd, if_pos rfl]
        have hall := ih.mp hd
        constructor
        · intro _ b hb
          rcases List.mem_cons.mp hb with hb1 | hb1
          · rw [hb1]
          · exact hall b hb1
        · intro _; trivial
      | cons d ds =>
        rw [dropTrailing_cons_of_ne_nil sep sep cs d ds hd]
        constructor
        · intro h; exact absurd h (by simp)
        · intro h
          have h0 : dropTrailing sep cs = [] :=
            ih.mpr (fun b hb => h b (by simp [hb]))
          rw [h0] at hd; exact absurd hd (by simp)
    · cases hs : splitChar sep cs with
      | nil => exact absurd hs (splitChar_ne_nil sep cs)
      | cons w ws =>
        rw [splitChar_cons_of_ne sep c cs hc w ws hs]
        cases hd : dropTrailing sep cs with
        | nil =>
          rw [dropTrailing_cons_of_nil sep c cs hd, if_neg hc]
          constructor
          · intro h; exact absurd h (by simp)
          · intro h
            have := h (c :: w) (by simp)
            exact absurd this (by simp)
        | cons d ds =>
          rw [dropTrailing_cons_of_ne_nil sep c cs d ds hd]
          constructor
          · intro h; exact absurd h (by simp)
          · intro h
            have := h (c :: w) (by simp)
            exact absurd this (by simp)

theorem mem_dropTrailNil (s : List (List Char)) (a : List Char)
    (ha : a ∈ s) (hne : a ≠ []) : a ∈ dropTrailNil s := by
  induction s with
  | nil => simp at ha
  | cons b bs ih =>
    rcases List.mem_cons.mp ha with hb | hb
    · subst hb
      cases hr : dropTrailNil bs with
      | nil => rw [dropTrailNil_cons_of_nil a bs hr, if_neg hne]; simp
      | cons r rs => rw [dropTrailNil_cons_of_ne_nil a bs r rs hr]; simp
    · have hmem := ih hb
      cases hr : dropTrailNil bs with
      | nil => rw [hr] at hmem; exact absurd hmem (by simp)
      | cons r rs =>
        rw [dropTrailNil_cons_of_ne_nil b bs r rs hr]
        rw [hr] at hmem
        exact List.mem_cons_of_mem b hmem

/-- Pad the empty segment list to the singleton empty segment (splitChar
never returns an empty list). -/
def defaultSegs (s : List (List Char)) : List (List Char) :=
  if s = [] then [[]] else s

theorem splitChar_dropTrailing (sep : Char) (l : List Char) :
    splitChar sep (dropTrailing sep l) =
      defaultSegs (dropTrailNil (splitChar sep l)) := by
  induction l with
  | nil => simp [dropTrailing, splitChar, dropTrailNil, defaultSegs]
  | cons c cs ih =>
    by_cases hc : c = sep
    · rw [hc, splitChar_cons_sep]
      cases hd : dropTrailing sep cs with
      | nil =>
        rw [dropTrailing_cons_of_nil sep sep cs hd, if_pos rfl]
        have hall : ∀ a ∈ splitChar sep cs, a = [] :=
          (dropTrailing_eq_nil_iff sep cs).mp hd
        have hdtn : dropTrailNil (splitChar sep cs) = [] :=
          (dropTrailNil_nil_iff _).mpr hall
        rw [dropTrailNil_cons_of_nil _ _ hdtn, if_pos rfl]
        simp [splitChar, defaultSegs]
      | cons d ds =>
        rw [dropTrailing_cons_of_ne_nil sep sep cs d ds hd, ← hd,
          splitChar_cons_sep, ih]
        have hdtn : dropTrailNil (splitChar sep cs) ≠ [] := by
          intro h0
          have h1 : dropTrailing sep cs = [] :=
            (dropTrailing_eq_nil_iff sep cs).mpr ((dropTrailNil_nil_iff _).mp h0)
          rw [h1] at hd; exact absurd hd (by simp)
        cases hx : dropTrailNil (splitChar sep cs) with
        | nil => exact absurd hx hdtn
        | cons x xs =>
          rw [dropTrailNil_cons_of_ne_nil _ _ x xs hx]
          simp [defaultSegs]
    · cases hs : splitChar sep cs with
      | nil => exact absurd hs (splitChar_ne_nil sep cs)
      | cons w ws =>
        rw [splitChar_cons_of_ne sep c cs hc w ws hs]
        cases hd : dropTrailing sep cs with
        | nil =>
          rw [dropTrailing_cons_of_nil sep c cs hd, if_neg hc]
          have hall : ∀ a ∈ splitChar sep cs, a = [] :=
            (dropTrailing_eq_nil_iff sep cs).mp hd
          have hw : w = [] := hall w (by rw [hs]; simp)
          have hws : ∀ a ∈ ws, a = [] := fun a hb => hall a (by rw [hs]; simp [hb])
          have hdtnws : dropTrailNil ws = [] := (dropTrailNil_nil_iff _).mpr hws
          subst hw
          rw [dropTrailNil_cons_of_nil _ _ hdtnws,
            if_neg (by simp : ¬ ((c :: []) : List Char) = [])]
          simp [splitChar, defaultSegs, hc]
        | cons d ds =>
          rw [dropTrailing_cons_of_ne_nil sep c cs d ds hd]
          have hmain : splitChar sep (d :: ds) = defaultSegs (dropTrailNil (w :: ws)) := by
            rw [← hd, ← hs]; exact ih
          cases hx : dropTrailNil ws with
          | nil =>
            by_cases hw : w = []
            · subst hw
              rw [dropTrailNil_cons_of_nil _ _ hx, if_pos rfl] at hmain
              simp only [defaultSegs, if_pos rfl] at hmain
              rw [splitChar_cons_of_ne sep c (d :: ds) hc [] [] hmain]
              rw [dropTrailNil_cons_of_nil _ _ hx,
                if_neg (by simp : ¬ ((c :: []) : List Char) = [])]
              simp [defaultSegs]
            · rw [dropTrailNil_cons_of_nil _ _ hx, if_neg hw] at hmain
              simp only [defaultSegs,
                if_neg (by simp : ¬ (([w] : List (List Char)) = []))] at hmain
              rw [splitChar_cons_of_ne sep c (d :: ds) hc w [] hmain]
              rw [dropTrailNil_cons_of_nil _ _ hx,
                if_neg (by simp : ¬ ((c :: w) : List Char) = [])]
              simp [defaultSegs]
          | cons y ys =>
            rw [dropTrailNil_cons_of_ne_nil _ _ y ys hx] at hmain
            simp only [defaultSegs,
              if_neg (by simp : ¬ ((w :: y :: ys) : List (List Char)) = [])] at hmain
            rw [splitChar_cons_of_ne sep c (d :: ds) hc w (y :: ys) hmain]
            rw [dropTrailNil_cons_of_ne_nil _ _ y ys hx]
            simp [defaultSegs]

theorem mem_splitChar_dropTrailing (sep : Char) (l : List Char) (a : List Char)
    (ha : a ∈ splitChar sep l) (hne : a ≠ []) :
    a ∈ splitChar sep (dropTrailing sep l) := by
  rw [splitChar_dropTrailing]
  have hmem := mem_dropTrailNil (splitChar sep l) a ha hne
  unfold defaultSegs
  split
  · rename_i h0
    rw [h0] at hmem; exact absurd hmem (by simp)
  · exact hmem

/-! ### Lemmas connecting commonpath2 with the descendant relation -/

theorem commonSegs_pre_left (a b : List (List Char)) : commonSegs a b <+: a := by
  induction a generalizing b with
  | nil => cases b <;> simp [commonSegs]
  | cons x xs ih =>
    cases b with
    | nil => simp [commonSegs]
    | cons y ys =>
      by_cases hxy : x = y
      · simp only [commonSegs, if_pos hxy]
        exact (List.cons_prefix_cons).mpr ⟨rfl, ih ys⟩
      · simp only [commonSegs, if_neg hxy]
        simp

theorem commonSegs_eq_right (a b : List (List Char)) (h : commonSegs a b = b) :
    b <+: a := by
  induction a generalizing b with
  | nil =>
    cases b with
    | nil => simp
    | cons y ys => simp [commonSegs] at h
  | cons x xs ih =>
    cases b with
    | nil => simp
    | cons y ys =>
      by_cases hxy : x = y
      · simp only [commonSegs, if_pos hxy] at h
        have h2 : commonSegs xs ys = ys := by
          have := List.cons.injEq x (commonSegs xs ys) y ys ▸ h
          exact (List.cons.inj h).2
        have := ih ys h2
        exact (List.cons_prefix_cons).mpr ⟨hxy.symm, this⟩
      · simp only [commonSegs, if_neg hxy] at h
        exact absurd h.symm (by simp)

theorem splitChar_no_sep (sep : Char) (l : List Char) :
    ∀ a ∈ splitChar sep l, sep ∉ a := by
  induction l with
  | nil => intro a ha; simp [splitChar] at ha; simp [ha]
  | cons c cs ih =>
    intro a ha
    by_cases hc : c = sep
    · rw [hc, splitChar_cons_sep] at ha
      rcases List.mem_cons.mp ha with h1 | h1
      · simp [h1]
      · exact ih a h1
    · cases hs : splitChar sep cs with
      | nil => exact absurd hs (splitChar_ne_nil sep cs)
      | cons w ws =>
        rw [splitChar_cons_of_ne sep c cs hc w ws hs] at ha
        rcases List.mem_cons.mp ha with h1 | h1
        · subst h1
          intro hmem
          rcases List.mem_cons.mp hmem with h2 | h2
          · exact hc h2.symm
          · exact ih w (by rw [hs]; simp) h2
        · exact ih a (by rw [hs]; simp [h1])

theorem splitChar_of_no_sep (sep : Char) (a : List Char) (h : sep ∉ a) :
    splitChar sep a = [a] := by
  induction a with
  | nil => simp [splitChar]
  | cons c cs ih =>
    have hc : ¬ c = sep := fun hh => h (by simp [hh])
    have hcs : sep ∉ cs := fun hh => h (by simp [hh])
    rw [splitChar_cons_of_ne sep c cs hc cs [] (ih hcs)]

theorem splitChar_append_sep (sep : Char) (a t : List Char) (h : sep ∉ a) :
    splitChar sep (a ++ sep :: t) = a :: splitChar sep t := by
  induction a with
  | nil => simp [splitChar_cons_sep]
  | cons c cs ih =>
    have hc : ¬ c = sep := fun hh => h (by simp [hh])
    have hcs : sep ∉ cs := fun hh => h (by simp [hh])
    have hmid := ih hcs
    cases hs : splitChar sep t with
    | nil => exact absurd hs (splitChar_ne_nil sep t)
    | cons w ws =>
      rw [hs] at hmid
      show splitChar sep (c :: (cs ++ sep :: t)) = (c :: cs) :: w :: ws
      rw [splitChar_cons_of_ne sep c (cs ++ sep :: t) hc cs (w :: ws) hmid]

theorem splitChar_joinComps (sep : Char) (l : List (List Char)) (hne : l ≠ [])
    (hfree : ∀ a ∈ l, sep ∉ a) : splitChar sep (joinComps sep l) = l := by
  induction l with
  | nil => exact absurd rfl hne
  | cons a rest ih =>
    cases rest with
    | nil => simpa [joinComps] using splitChar_of_no_sep sep a (hfree a (by simp))
    | cons b r2 =>
      show splitChar sep (a ++ sep :: joinComps sep (b :: r2)) = _
      rw [splitChar_append_sep sep a _ (hfree a (by simp))]
      rw [ih (by simp) (fun x hx => hfree x (by simp [hx]))]

theorem joinComps_ne_nil (sep : Char) (l : List (List Char)) (hne : l ≠ [])
    (h : ∀ a ∈ l, a ≠ []) : joinComps sep l ≠ [] := by
  cases l with
  | nil => exact absurd rfl hne
  | cons a rest =>
    cases rest with
    | nil =>
      show a ≠ []
      exact h a (by simp)
    | cons b r2 =>
      show a ++ sep :: joinComps sep (b :: r2) ≠ []
      cases a with
      | nil => exact absurd rfl (h [] (by simp))
      | cons x xs => simp

theorem joinComps_inj (sep : Char) (l1 l2 : List (List Char))
    (h1 : ∀ a ∈ l1, a ≠ [] ∧ sep ∉ a) (h2 : ∀ a ∈ l2, a ≠ [] ∧ sep ∉ a)
    (h : joinComps sep l1 = joinComps sep l2) : l1 = l2 := by
  by_cases e1 : l1 = []
  · by_cases e2 : l2 = []
    · rw [e1, e2]
    · rw [e1] at h
      exact absurd h.symm (joinComps_ne_nil sep l2 e2 (fun a ha => (h2 a ha).1))
  · by_cases e2 : l2 = []
    · rw [e2] at h
      exact absurd h (joinComps_ne_nil sep l1 e1 (fun a ha => (h1 a ha).1))
    · have r1 := splitChar_joinComps sep l1 e1 (fun a ha => (h1 a ha).2)
      have r2 := splitChar_joinComps sep l2 e2 (fun a ha => (h2 a ha).2)
      rw [← r1, ← r2, h]

theorem cpSegs_good (s : String) : ∀ a ∈ cpSegs s, a ≠ [] ∧ '/' ∉ a := by
  intro a ha
  unfold cpSegs at ha
  have hmem := List.mem_of_mem_filter ha
  have hprop := List.of_mem_filter ha
  simp only [decide_eq_true_eq] at hprop
  exact ⟨hprop.1, splitChar_no_sep '/' s.data a hmem⟩

theorem commonpath2_descendant (p root : String)
    (habs : isAbs root = true)
    (hroot : root.data = '/' :: joinComps '/' (cpSegs root))
    (h : commonpath2 p root = some root) : isDescendant p root := by
  unfold commonpath2 at h
  by_cases habs2 : isAbs p ≠ isAbs root
  · rw [if_pos habs2] at h; exact absurd h (by simp)
  · rw [if_neg habs2] at h
    have habsp : isAbs p = true := by
      rw [not_ne_iff] at habs2; rw [habs2, habs]
    rw [habsp] at h
    simp only [if_pos rfl, Option.some.injEq] at h
    have hdata : ('/' :: joinComps '/' (commonSegs (cpSegs p) (cpSegs root))) = root.data := by
      have := congrArg String.data h
      exact this
    rw [hroot] at hdata
    have hjoin : joinComps '/' (commonSegs (cpSegs p) (cpSegs root)) =
        joinComps '/' (cpSegs root) := (List.cons.inj hdata).2
    have hsub : ∀ a ∈ commonSegs (cpSegs p) (cpSegs root), a ≠ [] ∧ '/' ∉ a := by
      intro a ha
      exact cpSegs_good p a ((commonSegs_pre_left (cpSegs p) (cpSegs root)).sublist.mem ha)
    have heq : commonSegs (cpSegs p) (cpSegs root) = cpSegs root :=
      joinComps_inj '/' _ _ hsub (cpSegs_good root) hjoin
    refine ⟨by rw [habsp, habs], commonSegs_eq_right _ _ heq⟩

/-! ### Structure lemmas for checkCandidate, tryCandidates and load_doc_page -/

theorem checkCandidate_eq_some (fs : FS) (rc cand p : String)
    (h : checkCandidate fs rc cand = some p) :
    fs.pathExists cand = true ∧ p = fs.realpath cand ∧
    basename p ≠ "README.md" ∧ commonpath2 p rc = some rc := by
  unfold checkCandidate at h
  split at h
  · exact absurd h (by simp)
  · split at h
    · exact absurd h (by simp)
    · split at h
      · exact absurd h (by simp)
      · rename_i hex hb hcp
        have hp : fs.realpath cand = p := by
          simpa using h
        refine ⟨by simpa using hex, hp.symm, ?_, ?_⟩
        · rw [← hp]; exact hb
        · rw [← hp]; simpa using hcp

theorem tryCandidates_ok_none (fs : FS) (rc : String)
    (render : String → Metadata × String) (l : List String) (m : Metadata)
    (h : tryCandidates fs rc render l = .ok (m, none)) : m = Metadata.empty := by
  induction l with
  | nil =>
    unfold tryCandidates at h
    simp only [Except.ok.injEq, Prod.mk.injEq] at h
    exact h.1.symm
  | cons c rest ih =>
    unfold tryCandidates at h
    cases hc : checkCandidate fs rc c with
    | none => simp only [hc] at h; exact ih h
    | some p =>
      simp only [hc] at h
      cases hr : fs.readFile p with
      | none => simp only [hr] at h; exact absurd h (by simp)
      | some t =>
        simp only [hr, Except.ok.injEq, Prod.mk.injEq] at h
        exact absurd h.2 (by simp)

theorem tryCandidates_ok_some (fs : FS) (rc : String)
    (render : String → Metadata × String) (l : List String) (m : Metadata)
    (html : String)
    (hres : tryCandidates fs rc render l = .ok (m, some html)) :
    ∃ cand p text, cand ∈ l ∧ checkCandidate fs rc cand = some p ∧
      fs.readFile p = some text ∧ m = (render text).1 ∧ html = (render text).2 := by
  induction l with
  | nil =>
    unfold tryCandidates at hres
    exact absurd hres (by simp)
  | cons c rest ih =>
    unfold tryCandidates at hres
    cases hc : checkCandidate fs rc c with
    | none =>
      simp only [hc] at hres
      obtain ⟨cand, p, text, hmem, rest'⟩ := ih hres
      exact ⟨cand, p, text, List.mem_cons_of_mem c hmem, rest'⟩
    | some p =>
      simp only [hc] at hres
      cases hr : fs.readFile p with
      | none => simp only [hr] at hres; exact absurd hres (by simp)
      | some t =>
        simp only [hr, Except.ok.injEq, Prod.mk.injEq, Option.some.injEq] at hres
        exact ⟨c, p, t, by simp, hc, hr, hres.1.symm, hres.2.symm⟩

theorem load_ok_none_empty (fs : FS) (root : String)
    (render : String → Metadata × String) (page : String) (m : Metadata)
    (h : load_doc_page fs root render page = .ok (m, none)) : m = Metadata.empty := by
  unfold load_doc_page at h
  split at h
  · simp only [Except.ok.injEq, Prod.mk.injEq] at h; exact h.1.symm
  · split at h
    · simp only [Except.ok.injEq, Prod.mk.injEq] at h; exact h.1.symm
    · split at h
      · simp only [Except.ok.injEq, Prod.mk.injEq] at h; exact h.1.symm
      · exact tryCandidates_ok_none _ _ _ _ _ h

/-! ### Concrete fixtures used by witnesses and counterexamples -/

/-- A render function for concrete scenarios. -/
def wrender : String → Metadata × String := fun _ => (Metadata.empty, "HTML")

/-- Filesystem with a single ordinary file /r/x.md, no symlinks. -/
def fsX : FS where
  pathExists := fun p => p == "/r/x.md"
  realpath := fun p => p
  readFile := fun p => if p = "/r/x.md" then some "hello" else none

/-- Filesystem where /r/p.md is a symlink to /r/README.md and
/r/p/index.md is an ordinary file. -/
def fsFall : FS where
  pathExists := fun p => p == "/r/p.md" || p == "/r/p/index.md"
  realpath := fun p => if p = "/r/p.md" then "/r/README.md" else p
  readFile := fun p => if p = "/r/p/index.md" then some "hello" else none

/-- Empty filesystem. -/
def fsEmpty : FS where
  pathExists := fun _ => false
  realpath := fun p => p
  readFile := fun _ => none

/-- Filesystem where /r/x.md exists but every read fails (models the file
disappearing between the existence check and the open). -/
def fsNoRead : FS where
  pathExists := fun p => p == "/r/x.md"
  realpath := fun p => p
  readFile := fun _ => none

/-! ### Claim theorems for the path resolver -/

/-- C1: whenever load_doc_page succeeds (returns HTML), the file that was
read came from one of the two candidates, was read after symbolic-link
resolution, is (still, after resolving it again) a descendant of the
normalized document root, and its basename is not README.md. -/
theorem c1_resolved_file_invariant (fs : FS) (root : String)
    (render : String → Metadata × String) (page : String) (m : Metadata)
    (html : String)
    (habs : isAbs (normpath root) = true)
    (hrootdata : (normpath root).data = '/' :: joinComps '/' (cpSegs (normpath root)))
    (hreal : ∀ q, fs.realpath (fs.realpath q) = fs.realpath q)
    (hres : load_doc_page fs root render page = .ok (m, some html)) :
    ∃ cand p text,
      cand ∈ candidatesOf root page ∧
      checkCandidate fs (normpath root) cand = some p ∧
      fs.readFile p = some text ∧
      m = (render text).1 ∧ html = (render text).2 ∧
      basename p ≠ "README.md" ∧
      isDescendant (fs.realpath p) (normpath root) := by
  unfold load_doc_page at hres
  split at hres
  · exact absurd hres (by simp)
  · split at hres
    · exact absurd hres (by simp)
    · split at hres
      · exact absurd hres (by simp)
      · obtain ⟨cand, p, text, hmem, hchk, hread, hm, hh⟩ :=
          tryCandidates_ok_some fs (normpath root) render (candidatesOf root page)
            m html hres
        obtain ⟨hex, hp, hb, hcp⟩ := checkCandidate_eq_some fs (normpath root) cand p hchk
        have hfix : fs.realpath p = p := by
          rw [hp]; exact hreal cand
        refine ⟨cand, p, text, hmem, hchk, hread, hm, hh, hb, ?_⟩
        rw [hfix]
        exact commonpath2_descendant p (normpath root) habs hrootdata hcp

/-- Witness for C1 at a concrete filesystem (root /r containing x.md,
page x). -/
theorem c1_witness : ∃ cand p text,
    cand ∈ candidatesOf "/r" "x" ∧
    checkCandidate fsX (normpath "/r") cand = some p ∧
    fsX.readFile p = some text ∧
    Metadata.empty = (wrender text).1 ∧ "HTML" = (wrender text).2 ∧
    basename p ≠ "README.md" ∧
    isDescendant (fsX.realpath p) (normpath "/r") :=
  c1_resolved_file_invariant fsX "/r" wrender "x" Metadata.empty "HTML"
    (by decide) (by decide) (fun q => rfl) (by rfl)

/-- C2 counterexample: the page "/r/x" begins with a slash, yet (with root
/r and filesystem fsX) load_doc_page renders it rather than returning the
not-found result, refuting the leading-slash clause of the claim. -/
theorem c2_counterexample :
    isAbs "/r/x" = true ∧
    load_doc_page fsX "/r" wrender "/r/x" ≠ .ok (Metadata.empty, none) := by
  constructor
  · decide
  · intro hcontra
    have heval : load_doc_page fsX "/r" wrender "/r/x" =
        .ok (Metadata.empty, some "HTML") := by rfl
    rw [heval] at hcontra
    simp at hcontra

/-- C2 (amended): a page containing a '..' segment, or a segment starting
with '.', or whose normalized joined base path fails the lexical
containment check against the normalized root (which covers leading-slash
pages addressing files outside the root), or for which every candidate is
rejected (missing, README after symlink resolution, or outside the root
after symlink resolution), yields the not-found result. -/
theorem c2_not_found (fs : FS) (root : String)
    (render : String → Metadata × String) (page : String)
    (h : (splitChar '/' page.data).contains ['.', '.'] = true
       ∨ (splitChar '/' page.data).any (fun part => part.head? = some '.') = true
       ∨ commonpath2 (basePathOf root page) (normpath root) ≠ some (normpath root)
       ∨ ∀ cand ∈ candidatesOf root page, checkCandidate fs (normpath root) cand = none) :
    load_doc_page fs root render page = .ok (Metadata.empty, none) := by
  unfold load_doc_page
  rcases h with h1 | h2 | h3 | h4
  · rw [if_pos h1]
  · by_cases hdd : (splitChar '/' page.data).contains ['.', '.']
    · rw [if_pos hdd]
    · rw [if_neg hdd]
      by_cases hcp : commonpath2 (basePathOf root page) (normpath root) ≠ some (normpath root)
      · rw [if_pos hcp]
      · rw [if_neg hcp]
        have hstrip : (splitChar '/' (dropTrailing '/' page.data)).any
            (fun part => part.head? = some '.') = true := by
          rw [List.any_eq_true] at h2 ⊢
          obtain ⟨a, ha, hp⟩ := h2
          refine ⟨a, mem_splitChar_dropTrailing '/' page.data a ha ?_, hp⟩
          intro hnil
          rw [hnil] at hp
          simp at hp
        rw [if_pos hstrip]
  · by_cases hdd : (splitChar '/' page.data).contains ['.', '.']
    · rw [if_pos hdd]
    · rw [if_neg hdd, if_pos h3]
  · by_cases hdd : (splitChar '/' page.data).contains ['.', '.']
    · rw [if_pos hdd]
    · rw [if_neg hdd]
      by_cases hcp : commonpath2 (basePathOf root page) (normpath root) ≠ some (normpath root)
      · rw [if_pos hcp]
      · rw [if_neg hcp]
        by_cases hhid : (splitChar '/' (dropTrailing '/' page.data)).any
            (fun part => part.head? = some '.') = true
        · rw [if_pos hhid]
        · rw [if_neg hhid]
          have hc1 := h4 (basePathOf root page ++ ".md") (by simp [candidatesOf])
          have hc2 := h4 (pyJoin (basePathOf root page) "index.md") (by simp [candidatesOf])
          show tryCandidates fs (normpath root) render (candidatesOf root page) = _
          unfold candidatesOf
          unfold tryCandidates
          simp only [hc1]
          unfold tryCandidates
          simp only [hc2]
          unfold tryCandidates
          rfl

/-- Witness for the amended C2: a page with a '..' segment is not found. -/
theorem c2_witness : load_doc_page fsX "/r" wrender "../x" = .ok (Metadata.empty, none) :=
  c2_not_found fsX "/r" wrender "../x" (Or.inl (by decide))

/-- C4 counterexample: with root /r, page p, filesystem fsFall, the first
candidate /r/p.md exists and its real basename is README.md, yet
load_doc_page does not return not-found: it falls through and renders the
second candidate, refuting the committed-selection claim. -/
theorem c4_counterexample :
    candidatesOf "/r" "p" = ["/r/p.md", "/r/p/index.md"] ∧
    fsFall.pathExists "/r/p.md" = true ∧
    basename (fsFall.realpath "/r/p.md") = "README.md" ∧
    load_doc_page fsFall "/r" wrender "p" ≠ .ok (Metadata.empty, none) := by
  refine ⟨by decide, by decide, by decide, ?_⟩
  intro hcontra
  have heval : load_doc_page fsFall "/r" wrender "p" =
      .ok (Metadata.empty, some "HTML") := by rfl
  rw [heval] at hcontra
  simp at hcontra

/-- C4 (amended): the per-file checks are applied per candidate: a
candidate that fails the existence, README or containment check is skipped
and the next candidate is tried; the first passing candidate is read and
rendered; and when the page passes the preliminary checks load_doc_page is
exactly this loop over the two candidates. -/
theorem c4_per_candidate_checks (fs : FS) (root : String)
    (render : String → Metadata × String) (page : String) :
    (∀ cand rest, checkCandidate fs (normpath root) cand = none →
      tryCandidates fs (normpath root) render (cand :: rest) =
        tryCandidates fs (normpath root) render rest)
    ∧ (∀ cand rest p, checkCandidate fs (normpath root) cand = some p →
      tryCandidates fs (normpath root) render (cand :: rest) =
        match fs.readFile p with
        | none => .error .readFailure
        | some text => .ok ((render text).1, some (render text).2))
    ∧ ((splitChar '/' page.data).contains ['.', '.'] = false →
       commonpath2 (basePathOf root page) (normpath root) = some (normpath root) →
       (splitChar '/' (dropTrailing '/' page.data)).any
         (fun part => part.head? = some '.') = false →
       load_doc_page fs root render page =
         tryCandidates fs (normpath root) render (candidatesOf root page)) := by
  refine ⟨?_, ?_, ?_⟩
  · intro cand rest hc
    unfold tryCandidates
    simp only [hc]
    cases rest with
    | nil => simp [tryCandidates]
    | cons c2 r2 => simp [tryCandidates]
  · intro cand rest p hc
    unfold tryCandidates
    simp only [hc]
  · intro h1 h2 h3
    unfold load_doc_page
    rw [if_neg (by rw [h1]; simp), if_neg (by simp [h2]), if_neg (by rw [h3]; simp)]

/-- Witness for the amended C4: the existing-but-README first candidate is
skipped and resolution continues with the remaining candidate. -/
theorem c4_witness :
    tryCandidates fsFall (normpath "/r") wrender ["/r/p.md", "/r/p/index.md"] =
      tryCandidates fsFall (normpath "/r") wrender ["/r/p/index.md"] :=
  (c4_per_candidate_checks fsFall "/r" wrender "p").1 "/r/p.md" ["/r/p/index.md"]
    (by decide)

/-- C8: when a candidate passes the existence and security checks but the
subsequent read fails, load_doc_page propagates the failure (an uncaught
exception in the source) instead of mapping it to the not-found result. -/
theorem c8_read_failure_propagates (fs : FS) (root : String)
    (render : String → Metadata × String) (page p : String)
    (h1 : (splitChar '/' page.data).contains ['.', '.'] = false)
    (h2 : commonpath2 (basePathOf root page) (normpath root) = some (normpath root))
    (h3 : (splitChar '/' (dropTrailing '/' page.data)).any
      (fun part => part.head? = some '.') = false)
    (hsel : checkCandidate fs (normpath root) (basePathOf root page ++ ".md") = some p
          ∨ (checkCandidate fs (normpath root) (basePathOf root page ++ ".md") = none
             ∧ checkCandidate fs (normpath root)
                 (pyJoin (basePathOf root page) "index.md") = some p))
    (hread : fs.readFile p = none) :
    load_doc_page fs root render page = .error .readFailure := by
  unfold load_doc_page
  rw [if_neg (by rw [h1]; simp), if_neg (by simp [h2]), if_neg (by rw [h3]; simp)]
  unfold candidatesOf
  rcases hsel with hs | ⟨hn, hs⟩
  · unfold tryCandidates
    simp only [hs, hread]
  · unfold tryCandidates
    simp only [hn]
    unfold tryCandidates
    simp only [hs, hread]

/-- Witness for C8: /r/x.md passes every check but its read fails. -/
theorem c8_witness : load_doc_page fsNoRead "/r" wrender "x" = .error .readFailure :=
  c8_read_failure_propagates fsNoRead "/r" wrender "x" "/r/x.md"
    (by decide) (by decide) (by decide) (Or.inl (by decide)) (by decide)

/-- C9: every non-render outcome of load_doc_page carries the empty
metadata mapping and the absent HTML option, so any two non-render
outcomes (for example a security rejection and a genuinely missing page)
are the identical value. -/
theorem c9_rejection_indistinguishable (fs1 fs2 : FS) (root1 root2 : String)
    (render1 render2 : String → Metadata × String) (p1 p2 : String)
    (m1 m2 : Metadata)
    (h1 : load_doc_page fs1 root1 render1 p1 = .ok (m1, none))
    (h2 : load_doc_page fs2 root2 render2 p2 = .ok (m2, none)) :
    m1 = Metadata.empty ∧
      load_doc_page fs1 root1 render1 p1 = load_doc_page fs2 root2 render2 p2 := by
  have e1 : m1 = Metadata.empty := load_ok_none_empty fs1 root1 render1 p1 m1 h1
  have e2 : m2 = Metadata.empty := load_ok_none_empty fs2 root2 render2 p2 m2 h2
  refine ⟨e1, ?_⟩
  rw [h1, h2, e1, e2]

/-- Witness for C9: a '..' security rejection and a genuinely missing page
produce the identical result. -/
theorem c9_witness : Metadata.empty = Metadata.empty ∧
    load_doc_page fsX "/r" wrender "../x" = load_doc_page fsEmpty "/r" wrender "zz" :=
  c9_rejection_indistinguishable fsX fsEmpty "/r" "/r" wrender wrender "../x" "zz"
    Metadata.empty Metadata.empty (by rfl) (by rfl)

/-! ### urllib.parse.urlsplit and urlunsplit (modelled from CPython 3.11)

The two ValueError paths of urlsplit (unbalanced IPv6 brackets in the
netloc, and the NFKC check of _checknetloc) are omitted: neither alters the
computed components, and the rewriter claims concern hrefs that parse
successfully.  Components are character lists; an absent component is the
empty list, as in Python where it is the empty string. -/

/-- scheme_chars of urllib.parse: ASCII letters, digits, and plus, minus,
dot. -/
def isSchemeChar (c : Char) : Bool :=
  c.isAlpha || c.isDigit || c = '+' || c = '-' || c = '.'

/-- Scan for the first colon, requiring every character before it to be a
scheme character; returns the parts before and after the colon. -/
def schemeScan : List Char → Option (List Char × List Char)
  | [] => none
  | c :: cs =>
    if c = ':' then some ([], cs)
    else if isSchemeChar c then
      match schemeScan cs with
      | some (a, b) => some (c :: a, b)
      | none => none
    else none

/-- The scheme-detection step of urlsplit: a colon at position at least 1,
an ASCII-alphabetic first character, every character before the colon a
scheme character; the scheme is lowercased. -/
def splitScheme : List Char → Option (List Char × List Char)
  | [] => none
  | c :: cs =>
    if c.isAlpha = false then none
    else
      match schemeScan cs with
      | some (a, rest) => some ((c :: a).map Char.toLower, rest)
      | none => none

theorem splitScheme_cons (c : Char) (cs : List Char) : splitScheme (c :: cs) =
    if c.isAlpha = false then none
    else
      match schemeScan cs with
      | some (a, rest) => some ((c :: a).map Char.toLower, rest)
      | none => none := rfl

/-- _splitnetloc after the two leading slashes: the netloc runs to the
first of '/', '?', '#'; the remainder keeps the delimiter. -/
def splitNetlocAux : List Char → List Char × List Char
  | [] => ([], [])
  | c :: cs =>
    if c = '/' ∨ c = '?' ∨ c = '#' then ([], c :: cs)
    else
      let r := splitNetlocAux cs
      (c :: r.1, r.2)

/-- Python s.split(sep, 1): the part before the first occurrence of sep
and, when sep occurs, the part after it. -/
def splitFirst (sep : Char) : List Char → List Char × Option (List Char)
  | [] => ([], none)
  | c :: cs =>
    if c = sep then ([], some cs)
    else
      let r := splitFirst sep cs
      (c :: r.1, r.2)

/-- The WHATWG-unsafe bytes (tab, carriage return, newline) removed by
urlsplit. -/
def removeUnsafe (l : List Char) : List Char :=
  l.filter (fun c => ¬ (c = Char.ofNat 9 ∨ c = Char.ofNat 13 ∨ c = Char.ofNat 10))

/-- The five components returned by urlsplit. -/
structure SplitResult where
  scheme : List Char
  netloc : List Char
  path : List Char
  query : List Char
  fragment : List Char
deriving DecidableEq, Repr

/-- The scheme step of urlsplit: the detected scheme (or empty) and the
remaining url. -/
def schemeStep (l : List Char) : List Char × List Char :=
  match splitScheme l with
  | some sr => sr
  | none => ([], l)

/-- The netloc step of urlsplit: when the remaining url starts with two
slashes, split off the netloc. -/
def netlocSplit : List Char → List Char × List Char
  | '/' :: '/' :: rest => splitNetlocAux rest
  | other => ([], other)

/-- urllib.parse.urlsplit with allow_fragments left at its default. -/
def urlsplit (url : List Char) : SplitResult :=
  let u0 := removeUnsafe url
  let su := schemeStep u0
  let nu := netlocSplit su.2
  let uf := splitFirst '#' nu.2
  let pq := splitFirst '?' uf.1
  ⟨su.1, nu.1, pq.1, (pq.2).getD [], (uf.2).getD []⟩

/-- uses_netloc of urllib.parse (the empty scheme is listed but the guard
in urlunsplit additionally requires a nonempty scheme). -/
def uses_netloc : List (List Char) :=
  ["", "ftp", "http", "gopher", "nntp", "telnet",
   "imap", "wais", "file", "mms", "https", "shttp",
   "snews", "prospero", "rtsp", "rtspu", "rsync",
   "svn", "svn+ssh", "sftp", "nfs", "git", "git+ssh",
   "ws", "wss"].map String.data

/-- Does a character list start with two slashes (url[:2] == '//'). -/
def startsSlash2 (l : List Char) : Bool :=
  match l with
  | '/' :: '/' :: _ => true
  | _ => false

/-- urllib.parse.urlunsplit. -/
def urlunsplit (r : SplitResult) : List Char :=
  let url := r.path
  let url :=
    if r.netloc ≠ [] ∨ (r.scheme ≠ [] ∧ r.scheme ∈ uses_netloc ∧ startsSlash2 url = false) then
      let url2 := if url ≠ [] ∧ url.head? ≠ some '/' then '/' :: url else url
      '/' :: '/' :: (r.netloc ++ url2)
    else url
  let url := if r.scheme ≠ [] then r.scheme ++ ':' :: url else url
  let url := if r.query ≠ [] then url ++ '?' :: r.query else url
  if r.fragment ≠ [] then url ++ '#' :: r.fragment else url

/-! ### The link rewriter (LinkRewritingTreeProcessor.handle_element) -/

/-- Does the path end in ".md". -/
def endsWithMd (l : List Char) : Bool :=
  match l.reverse with
  | 'd' :: 'm' :: '.' :: _ => true
  | _ => false

/-- The first two steps of the path rewrite of handle_element: strip
trailing slashes, then remove a final ".md" (path[:-3]). -/
def rstripMd (p : List Char) : List Char :=
  let p1 := dropTrailing '/' p
  if endsWithMd p1 then p1.take (p1.length - 3) else p1

/-- The path rewrite of handle_element: strip trailing slashes, remove a
final ".md" (path[:-3]), append exactly one slash. -/
def transformPath (p : List Char) : List Char :=
  rstripMd p ++ ['/']

/-- The per-href rewrite of handle_element: parse, leave external links
(nonempty netloc) alone, otherwise rewrite the path and reassemble with
the unchanged scheme, netloc, query and fragment. -/
def rewriteHref (href : String) : String :=
  let parts := urlsplit href.data
  if parts.netloc = [] then
    String.mk (urlunsplit
      ⟨parts.scheme, parts.netloc, transformPath parts.path, parts.query, parts.fragment⟩)
  else href

/-- An element of the parsed markdown tree: tag, ordered attributes,
children. -/
structure Elem where
  tag : String
  attrs : List (String × String)
  children : List Elem

/-- ElementTree element.get on the attribute mapping. -/
def attrsGet (attrs : List (String × String)) (k : String) : Option String :=
  match attrs with
  | [] => none
  | (k2, v) :: rest => if k2 = k then some v else attrsGet rest k

/-- ElementTree element.set on the attribute mapping: update in place,
append when absent. -/
def attrsSet (attrs : List (String × String)) (k v : String) : List (String × String) :=
  match attrs with
  | [] => [(k, v)]
  | (k2, v2) :: rest => if k2 = k then (k2, v) :: rest else (k2, v2) :: attrsSet rest k v

/-- handle_element: recurse into the children first, then rewrite the href
of an anchor element when the href parses without a netloc. -/
def handleElement : Elem → Elem
  | ⟨tag, attrs, children⟩ =>
    let newChildren := children.attach.map (fun x => handleElement x.1)
    if tag = "a" then
      match attrsGet attrs "href" with
      | some href =>
        if (urlsplit href.data).netloc = [] then
          ⟨tag, attrsSet attrs "href" (rewriteHref href), newChildren⟩
        else ⟨tag, attrs, newChildren⟩
      | none => ⟨tag, attrs, newChildren⟩
    else ⟨tag, attrs, newChildren⟩
termination_by e => sizeOf e
decreasing_by
  simp_wf
  have := List.sizeOf_lt_of_mem x.2
  omega

theorem attrsGet_attrsSet (attrs : List (String × String)) (k v : String) :
    attrsGet (attrsSet attrs k v) k = some v := by
  induction attrs with
  | nil => simp [attrsSet, attrsGet]
  | cons a rest ih =>
    obtain ⟨k2, v2⟩ := a
    by_cases hk : k2 = k
    · simp [attrsSet, attrsGet, hk]
    · simp [attrsSet, attrsGet, hk, ih]

/-! ### Claim theorems for the link rewriter -/

/-- C6: an anchor whose href parses with a nonempty authority (netloc) is
left with its attribute list, and in particular its href, unchanged. -/
theorem c6_external_links_unchanged (e : Elem) (href : String)
    (htag : e.tag = "a")
    (hhref : attrsGet e.attrs "href" = some href)
    (hnet : (urlsplit href.data).netloc ≠ []) :
    (handleElement e).attrs = e.attrs ∧
    attrsGet (handleElement e).attrs "href" = some href := by
  obtain ⟨tag, attrs, children⟩ := e
  simp only [Elem.tag] at htag
  simp only [Elem.attrs] at hhref
  subst htag
  constructor
  · simp [handleElement, hhref, hnet]
  · simp [handleElement, hhref, hnet]

/-- External anchor fixture. -/
def extAnchor : Elem := ⟨"a", [("href", "https://example.com/x.md")], []⟩

/-- Witness for C6 on a concrete external anchor. -/
theorem c6_witness :
    (handleElement extAnchor).attrs = extAnchor.attrs ∧
    attrsGet (handleElement extAnchor).attrs "href" = some "https://example.com/x.md" :=
  c6_external_links_unchanged extAnchor "https://example.com/x.md" rfl (by rfl)
    (by decide)

/-- C5: an anchor whose href parses with an empty authority is rewritten:
its new href reassembles the unchanged scheme, authority, query and
fragment around the path with all trailing slashes stripped, then one
final ".md" suffix removed when present, then exactly one slash appended. -/
theorem c5_internal_link_rewrite (e : Elem) (href : String)
    (htag : e.tag = "a")
    (hhref : attrsGet e.attrs "href" = some href)
    (hnet : (urlsplit href.data).netloc = []) :
    attrsGet (handleElement e).attrs "href" =
      some (String.mk (urlunsplit
        ⟨(urlsplit href.data).scheme, (urlsplit href.data).netloc,
         (let stripped := dropTrailing '/' (urlsplit href.data).path
          let noMd := if endsWithMd stripped then stripped.take (stripped.length - 3)
            else stripped
          noMd ++ ['/']),
         (urlsplit href.data).query, (urlsplit href.data).fragment⟩)) := by
  obtain ⟨tag, attrs, children⟩ := e
  simp only [Elem.tag] at htag
  simp only [Elem.attrs] at hhref
  subst htag
  simp [handleElement, hhref, hnet, rewriteHref, transformPath, rstripMd, attrsGet_attrsSet]

/-- Internal anchor fixture. -/
def intAnchor : Elem := ⟨"a", [("href", "foo.md")], []⟩

/-- Witness for C5 on a concrete internal anchor. -/
theorem c5_witness :
    attrsGet (handleElement intAnchor).attrs "href" =
      some (String.mk (urlunsplit
        ⟨(urlsplit ("foo.md").data).scheme, (urlsplit ("foo.md").data).netloc,
         (let stripped := dropTrailing '/' (urlsplit ("foo.md").data).path
          let noMd := if endsWithMd stripped then stripped.take (stripped.length - 3)
            else stripped
          noMd ++ ['/']),
         (urlsplit ("foo.md").data).query, (urlsplit ("foo.md").data).fragment⟩)) :=
  c5_internal_link_rewrite intAnchor "foo.md" rfl (by rfl) (by decide)

/-- C10: an anchor whose href has no authority and an empty path gets the
path "/"; in particular href "#sec" is rewritten to "/#sec". -/
theorem c10_empty_path_to_root (e : Elem) (href : String)
    (htag : e.tag = "a")
    (hhref : attrsGet e.attrs "href" = some href)
    (hnet : (urlsplit href.data).netloc = [])
    (hpath : (urlsplit href.data).path = []) :
    (attrsGet (handleElement e).attrs "href" =
      some (String.mk (urlunsplit
        ⟨(urlsplit href.data).scheme, [], ['/'],
         (urlsplit href.data).query, (urlsplit href.data).fragment⟩))) ∧
    rewriteHref "#sec" = "/#sec" := by
  refine ⟨?_, by rfl⟩
  obtain ⟨tag, attrs, children⟩ := e
  simp only [Elem.tag] at htag
  simp only [Elem.attrs] at hhref
  subst htag
  simp [handleElement, hhref, hnet, rewriteHref, transformPath, rstripMd, hpath,
    attrsGet_attrsSet, dropTrailing, endsWithMd]

/-- Fragment-only anchor fixture. -/
def fragAnchor : Elem := ⟨"a", [("href", "#sec")], []⟩

/-- Witness for C10 on a concrete fragment-only anchor. -/
theorem c10_witness :
    (attrsGet (handleElement fragAnchor).attrs "href" =
      some (String.mk (urlunsplit
        ⟨(urlsplit ("#sec").data).scheme, [], ['/'],
         (urlsplit ("#sec").data).query, (urlsplit ("#sec").data).fragment⟩))) ∧
    rewriteHref "#sec" = "/#sec" :=
  c10_empty_path_to_root fragAnchor "#sec" rfl (by rfl) (by decide) (by decide)

/-- C3 counterexample: the rewrite is not idempotent on internal hrefs.
Three families fail: a path with a stacked ".md.md" suffix ("foo.md.md"
becomes "foo.md/" then "foo/"); a path whose ".md" stripping exposes a
trailing slash ("a/.md" becomes "a//" then "a/"); and a relative path
whose rewrite starts with two slashes, which the second parse reads as an
authority ("/////y" becomes "///y/" then "/y/"). -/
theorem c3_counterexample :
    (urlsplit ("foo.md.md").data).netloc = [] ∧
    rewriteHref "foo.md.md" = "foo.md/" ∧
    rewriteHref (rewriteHref "foo.md.md") = "foo/" ∧
    rewriteHref (rewriteHref "foo.md.md") ≠ rewriteHref "foo.md.md" ∧
    rewriteHref "a/.md" = "a//" ∧
    rewriteHref (rewriteHref "a/.md") = "a/" ∧
    rewriteHref (rewriteHref "a/.md") ≠ rewriteHref "a/.md" ∧
    rewriteHref "/////y" = "///y/" ∧
    rewriteHref (rewriteHref "/////y") = "/y/" ∧
    rewriteHref (rewriteHref "/////y") ≠ rewriteHref "/////y" := by
  refine ⟨by decide, by rfl, by rfl, by decide, by rfl, by rfl, by decide,
    by rfl, by rfl, by decide⟩

/-! ### Character facts for scheme lowercasing -/

theorem char_ofNat_toNat (n : Nat) (h : n < 55296) : (Char.ofNat n).val.toNat = n := by
  have hv : n.isValidChar := Or.inl h
  unfold Char.ofNat
  rw [dif_pos hv]
  rfl

theorem char_toNat_inj (a b : Char) (h : a.val.toNat = b.val.toNat) : a = b :=
  Char.eq_of_val_eq (UInt32.ext h)

theorem char_isAlpha_iff (c : Char) : c.isAlpha = true ↔
    (65 ≤ c.val.toNat ∧ c.val.toNat ≤ 90) ∨ (97 ≤ c.val.toNat ∧ c.val.toNat ≤ 122) := by
  simp only [Char.isAlpha, Char.isUpper, Char.isLower, Bool.or_eq_true, Bool.and_eq_true,
    decide_eq_true_eq, ge_iff_le]
  exact Iff.rfl

theorem char_isDigit_iff (c : Char) : c.isDigit = true ↔
    48 ≤ c.val.toNat ∧ c.val.toNat ≤ 57 := by
  simp only [Char.isDigit, Bool.and_eq_true, decide_eq_true_eq, ge_iff_le]
  exact Iff.rfl

theorem char_toLower_toNat (c : Char) : (Char.toLower c).val.toNat =
    if 65 ≤ c.val.toNat ∧ c.val.toNat ≤ 90 then c.val.toNat + 32 else c.val.toNat := by
  simp only [Char.toLower, Char.toNat]
  split
  · rename_i hr
    rw [char_ofNat_toNat _ (by omega)]
  · rfl

theorem char_toLower_eq_self (c : Char)
    (h : ¬ (65 ≤ c.val.toNat ∧ c.val.toNat ≤ 90)) : Char.toLower c = c :=
  char_toNat_inj _ _ (by rw [char_toLower_toNat, if_neg h])

theorem char_toLower_idem (c : Char) : Char.toLower (Char.toLower c) = Char.toLower c := by
  apply char_toNat_inj
  rw [char_toLower_toNat (Char.toLower c), char_toLower_toNat c]
  by_cases h : 65 ≤ c.val.toNat ∧ c.val.toNat ≤ 90
  · rw [if_pos h, if_neg (by omega)]
  · rw [if_neg h, if_neg h]

theorem char_toLower_alpha (c : Char) (h : c.isAlpha = true) :
    (Char.toLower c).isAlpha = true := by
  rw [char_isAlpha_iff] at h ⊢
  rw [char_toLower_toNat]
  rcases h with h | h
  · rw [if_pos h]; omega
  · rw [if_neg (by omega)]; omega

theorem alpha_schemeChar (c : Char) (h : c.isAlpha = true) : isSchemeChar c = true := by
  unfold isSchemeChar
  simp [h]

theorem char_toLower_scheme (c : Char) (h : isSchemeChar c = true) :
    isSchemeChar (Char.toLower c) = true := by
  unfold isSchemeChar at h ⊢
  simp only [Bool.or_eq_true, decide_eq_true_eq] at h ⊢
  rcases h with (((hA | hD) | hP) | hM) | hDot
  · exact Or.inl (Or.inl (Or.inl (Or.inl (char_toLower_alpha c hA))))
  · refine Or.inl (Or.inl (Or.inl (Or.inr ?_)))
    rw [char_toLower_eq_self c (by rw [char_isDigit_iff] at hD; omega)]
    exact hD
  · subst hP
    have he : Char.toLower '+' = '+' := char_toLower_eq_self _ (by decide)
    rw [he]
    simp
  · subst hM
    have he : Char.toLower '-' = '-' := char_toLower_eq_self _ (by decide)
    rw [he]
    simp
  · subst hDot
    have he : Char.toLower '.' = '.' := char_toLower_eq_self _ (by decide)
    rw [he]
    simp

theorem schemeChar_ne (c : Char) (h : isSchemeChar c = true) :
    c ≠ ':' ∧ c ≠ '/' ∧ c ≠ '#' ∧ c ≠ '?' := by
  refine ⟨?_, ?_, ?_, ?_⟩ <;> rintro rfl <;> exact absurd h (by decide)

theorem alpha_ne_special (c : Char) (h : c.isAlpha = true) :
    c ≠ ':' ∧ c ≠ '/' ∧ c ≠ '#' ∧ c ≠ '?' :=
  schemeChar_ne c (alpha_schemeChar c h)

/-! ### Facts about splitFirst, splitNetlocAux and prefixes -/

theorem splitFirst_eq_none (sep : Char) (l a : List Char)
    (h : splitFirst sep l = (a, none)) : a = l ∧ sep ∉ l := by
  induction l generalizing a with
  | nil =>
    unfold splitFirst at h
    simp only [Prod.mk.injEq] at h
    exact ⟨h.1.symm, by simp⟩
  | cons c cs ih =>
    unfold splitFirst at h
    by_cases hc : c = sep
    · rw [if_pos hc] at h
      simp at h
    · rw [if_neg hc] at h
      simp only [Prod.mk.injEq] at h
      obtain ⟨ha, hb⟩ := h
      obtain ⟨ha2, hm⟩ := ih (splitFirst sep cs).1 (by rw [← hb])
      constructor
      · rw [← ha, ha2]
      · intro hmem
        rcases List.mem_cons.mp hmem with h1 | h1
        · exact hc h1.symm
        · exact hm h1

theorem splitFirst_eq_some (sep : Char) (l a b : List Char)
    (h : splitFirst sep l = (a, some b)) : l = a ++ sep :: b ∧ sep ∉ a := by
  induction l generalizing a with
  | nil =>
    unfold splitFirst at h
    simp at h
  | cons c cs ih =>
    unfold splitFirst at h
    by_cases hc : c = sep
    · rw [if_pos hc] at h
      simp only [Prod.mk.injEq, Option.some.injEq] at h
      obtain ⟨ha, hb⟩ := h
      subst hc
      rw [← ha, ← hb]
      constructor
      · rfl
      · simp
    · rw [if_neg hc] at h
      simp only [Prod.mk.injEq] at h
      obtain ⟨ha, hb⟩ := h
      obtain ⟨ha2, hm⟩ := ih (splitFirst sep cs).1 (by rw [← hb])
      constructor
      · rw [← ha, List.cons_append, ← ha2]
      · intro hmem
        rw [← ha] at hmem
        rcases List.mem_cons.mp hmem with h1 | h1
        · exact hc h1.symm
        · exact hm h1

theorem splitFirst_build_none (sep : Char) (l : List Char) (h : sep ∉ l) :
    splitFirst sep l = (l, none) := by
  induction l with
  | nil => rfl
  | cons c cs ih =>
    have hc : ¬ c = sep := fun hh => h (by simp [hh])
    have hcs : sep ∉ cs := fun hh => h (by simp [hh])
    unfold splitFirst
    rw [if_neg hc, ih hcs]

theorem splitFirst_build_some (sep : Char) (a b : List Char) (h : sep ∉ a) :
    splitFirst sep (a ++ sep :: b) = (a, some b) := by
  induction a with
  | nil => simp [splitFirst]
  | cons c cs ih =>
    have hc : ¬ c = sep := fun hh => h (by simp [hh])
    have hcs : sep ∉ cs := fun hh => h (by simp [hh])
    show splitFirst sep (c :: (cs ++ sep :: b)) = _
    unfold splitFirst
    rw [if_neg hc, ih hcs]

theorem splitFirst_fst_pre (sep : Char) (l : List Char) :
    (splitFirst sep l).1 <+: l := by
  induction l with
  | nil => simp [splitFirst]
  | cons c cs ih =>
    unfold splitFirst
    by_cases hc : c = sep
    · rw [if_pos hc]; simp
    · rw [if_neg hc]
      show c :: (splitFirst sep cs).1 <+: c :: cs
      exact (List.cons_prefix_cons).mpr ⟨rfl, ih⟩

theorem splitFirst_fst_not_mem (sep : Char) (l : List Char) :
    sep ∉ (splitFirst sep l).1 := by
  induction l with
  | nil => simp [splitFirst]
  | cons c cs ih =>
    unfold splitFirst
    by_cases hc : c = sep
    · rw [if_pos hc]; simp
    · rw [if_neg hc]
      show sep ∉ c :: (splitFirst sep cs).1
      intro hmem
      rcases List.mem_cons.mp hmem with h1 | h1
      · exact hc h1.symm
      · exact ih h1

theorem splitNetlocAux_shape (l : List Char) :
    l = (splitNetlocAux l).1 ++ (splitNetlocAux l).2 ∧
    ((splitNetlocAux l).2 = [] ∨ ∃ d t, (splitNetlocAux l).2 = d :: t ∧
      (d = '/' ∨ d = '?' ∨ d = '#')) := by
  induction l with
  | nil => simp [splitNetlocAux]
  | cons c cs ih =>
    unfold splitNetlocAux
    by_cases hc : c = '/' ∨ c = '?' ∨ c = '#'
    · rw [if_pos hc]
      exact ⟨rfl, Or.inr ⟨c, cs, rfl, hc⟩⟩
    · rw [if_neg hc]
      refine ⟨?_, ih.2⟩
      show c :: cs = (c :: (splitNetlocAux cs).1) ++ (splitNetlocAux cs).2
      rw [List.cons_append, ← ih.1]

theorem splitNetlocAux_slash (t : List Char) :
    splitNetlocAux ('/' :: t) = ([], '/' :: t) := by
  unfold splitNetlocAux
  rw [if_pos (Or.inl rfl)]

theorem dropTrailing_pre (sep : Char) (l : List Char) : dropTrailing sep l <+: l := by
  induction l with
  | nil => simp [dropTrailing]
  | cons c cs ih =>
    cases hd : dropTrailing sep cs with
    | nil =>
      rw [dropTrailing_cons_of_nil sep c cs hd]
      by_cases hc : c = sep
      · rw [if_pos hc]; simp
      · rw [if_neg hc]
        exact (List.cons_prefix_cons).mpr ⟨rfl, by simp⟩
    | cons d ds =>
      rw [dropTrailing_cons_of_ne_nil sep c cs d ds hd]
      exact (List.cons_prefix_cons).mpr ⟨rfl, by rw [← hd]; exact ih⟩

theorem rstripMd_pre (p : List Char) : rstripMd p <+: p := by
  have h1 : dropTrailing '/' p <+: p := dropTrailing_pre '/' p
  simp only [rstripMd]
  split
  · exact (List.take_prefix _ _).trans h1
  · exact h1

theorem pre_head (x p : List Char) (h : x <+: p) (hne : x ≠ []) :
    x.head? = p.head? := by
  obtain ⟨t, rfl⟩ := h
  cases x with
  | nil => exact absurd rfl hne
  | cons c cs => rfl

/-! ### Scheme detection facts -/

/-- A character list that begins with something urlsplit would parse as a
scheme: an alphabetic head, scheme characters up to a colon. -/
def SchemeLike (l : List Char) : Prop :=
  ∃ c a b, l = c :: (a ++ ':' :: b) ∧ c.isAlpha = true ∧ ∀ d ∈ a, isSchemeChar d = true

theorem schemeScan_eq_some (cs a b : List Char)
    (h : schemeScan cs = some (a, b)) :
    cs = a ++ ':' :: b ∧ ∀ d ∈ a, isSchemeChar d = true := by
  induction cs generalizing a with
  | nil => simp [schemeScan] at h
  | cons c cs2 ih =>
    unfold schemeScan at h
    by_cases hc : c = ':'
    · rw [if_pos hc] at h
      simp only [Option.some.injEq, Prod.mk.injEq] at h
      obtain ⟨ha, hb⟩ := h
      subst hc
      rw [← ha, ← hb]
      exact ⟨rfl, by simp⟩
    · rw [if_neg hc] at h
      by_cases hsc : isSchemeChar c = true
      · rw [if_pos hsc] at h
        cases hscan : schemeScan cs2 with
        | none => rw [hscan] at h; simp at h
        | some ab =>
          obtain ⟨a2, b2⟩ := ab
          rw [hscan] at h
          simp only [Option.map_some, Option.some.injEq, Prod.mk.injEq] at h
          obtain ⟨ha, hb⟩ := h
          obtain ⟨he, hall⟩ := ih a2 (by rw [hscan, hb])
          rw [← ha, he]
          refine ⟨rfl, ?_⟩
          intro d hd
          rcases List.mem_cons.mp hd with h1 | h1
          · rw [h1]; exact hsc
          · exact hall d h1
      · rw [if_neg hsc] at h
        simp at h

theorem schemeScan_build (a b : List Char) (h : ∀ d ∈ a, isSchemeChar d = true) :
    schemeScan (a ++ ':' :: b) = some (a, b) := by
  induction a with
  | nil => simp [schemeScan]
  | cons c cs ih =>
    have hsc : isSchemeChar c = true := h c (by simp)
    have hc : ¬ c = ':' := (schemeChar_ne c hsc).1
    show schemeScan (c :: (cs ++ ':' :: b)) = _
    unfold schemeScan
    rw [if_neg hc, if_pos hsc, ih (fun d hd => h d (by simp [hd]))]

theorem splitScheme_eq_some (l s rest : List Char)
    (h : splitScheme l = some (s, rest)) :
    ∃ c a, l = c :: (a ++ ':' :: rest) ∧ c.isAlpha = true ∧
      (∀ d ∈ a, isSchemeChar d = true) ∧ s = (c :: a).map Char.toLower := by
  cases l with
  | nil => simp [splitScheme] at h
  | cons c cs =>
    rw [splitScheme_cons] at h
    by_cases hal : c.isAlpha = false
    · rw [if_pos hal] at h; simp at h
    · rw [if_neg hal] at h
      cases hscan : schemeScan cs with
      | none => rw [hscan] at h; simp at h
      | some ab =>
        obtain ⟨a2, b2⟩ := ab
        rw [hscan] at h
        simp only [Option.some.injEq, Prod.mk.injEq] at h
        obtain ⟨hs, hr⟩ := h
        obtain ⟨he, hall⟩ := schemeScan_eq_some cs a2 b2 hscan
        refine ⟨c, a2, ?_, ?_, hall, hs.symm⟩
        · rw [he, hr]
        · simp at hal
          exact hal

/-- The scheme component a successful parse produces: nonempty, alphabetic
head, scheme characters throughout, fixed under lowercasing. -/
def SchemeOK (s : List Char) : Prop :=
  (∃ hd tl, s = hd :: tl ∧ hd.isAlpha = true) ∧
  (∀ d ∈ s, isSchemeChar d = true) ∧ s.map Char.toLower = s

theorem splitScheme_build (s U : List Char) (h : SchemeOK s) :
    splitScheme (s ++ ':' :: U) = some (s, U) := by
  obtain ⟨⟨hd, tl, hs, hal⟩, hall, hlow⟩ := h
  subst hs
  show splitScheme (hd :: (tl ++ ':' :: U)) = _
  rw [splitScheme_cons]
  rw [if_neg (by rw [hal]; simp)]
  rw [schemeScan_build tl U (fun d hd2 => hall d (by simp [hd2]))]
  simp only [Option.some.injEq, Prod.mk.injEq]
  exact ⟨by simpa using hlow, trivial⟩

theorem splitScheme_none_of_not (l : List Char) (h : ¬ SchemeLike l) :
    splitScheme l = none := by
  cases l with
  | nil => rfl
  | cons c cs =>
    rw [splitScheme_cons]
    by_cases hal : c.isAlpha = false
    · rw [if_pos hal]
    · rw [if_neg hal]
      cases hscan : schemeScan cs with
      | none => rfl
      | some ab =>
        obtain ⟨a2, b2⟩ := ab
        obtain ⟨he, hall⟩ := schemeScan_eq_some cs a2 b2 hscan
        exact absurd ⟨c, a2, b2, by rw [he], by simpa using hal, hall⟩ h

theorem not_schemeLike_of_none (l : List Char) (h : splitScheme l = none) :
    ¬ SchemeLike l := by
  intro hsl
  obtain ⟨c, a, b, hl, hal, hall⟩ := hsl
  subst hl
  rw [splitScheme_cons] at h
  rw [if_neg (by rw [hal]; simp)] at h
  rw [schemeScan_build a b hall] at h
  simp at h

theorem schemeLike_head (l : List Char) (h : SchemeLike l) :
    ∃ c t, l = c :: t ∧ c.isAlpha = true := by
  obtain ⟨c, a, b, hl, hal, _⟩ := h
  exact ⟨c, a ++ ':' :: b, hl, hal⟩

theorem schemeLike_mono (y rest t : List Char)
    (h : SchemeLike (y ++ '/' :: rest)) : SchemeLike (y ++ t) := by
  obtain ⟨c, a, b, hl, hal, hall⟩ := h
  have hA : ∀ d ∈ c :: a, d ≠ '/' := by
    intro d hd
    rcases List.mem_cons.mp hd with h1 | h1
    · rw [h1]; exact (alpha_ne_special c hal).2.1
    · exact (schemeChar_ne d (hall d h1)).2.1
  have hl2 : (c :: a) ++ ':' :: b = y ++ '/' :: rest := by
    rw [List.cons_append]
    exact hl.symm
  rcases List.append_eq_append_iff.mp hl2 with ⟨w, hw1, hw2⟩ | ⟨w, hw1, hw2⟩
  · -- y = (c :: a) ++ w  and ':' :: b = w ++ '/' :: rest
    cases w with
    | nil =>
      simp at hw2
    | cons w0 ws =>
      have hw0 : w0 = ':' := by
        have := hw2
        simp only [List.cons_append] at this
        exact (List.cons.inj this).1.symm
      subst hw0
      refine ⟨c, a, ws ++ t, ?_, hal, hall⟩
      rw [hw1]
      simp
  · -- c :: a = y ++ w  and '/' :: rest = w ++ ':' :: b
    cases w with
    | nil =>
      simp at hw2
    | cons w0 ws =>
      have hw0 : w0 = '/' := by
        simp only [List.cons_append] at hw2
        exact (List.cons.inj hw2).1.symm
      subst hw0
      have : '/' ∈ c :: a := by
        rw [hw1]
        simp
      exact absurd rfl (hA '/' this)

/-! ### Step equations for urlsplit and shapes of urlunsplit output -/

theorem schemeStep_none (l : List Char) (h : splitScheme l = none) :
    schemeStep l = ([], l) := by
  unfold schemeStep
  rw [h]

theorem schemeStep_some (l s rest : List Char) (h : splitScheme l = some (s, rest)) :
    schemeStep l = (s, rest) := by
  unfold schemeStep
  rw [h]

theorem netlocSplit_of_not_slash2 (l : List Char) (h : startsSlash2 l = false) :
    netlocSplit l = ([], l) := by
  unfold netlocSplit
  split
  · rename_i rest
    simp [startsSlash2] at h
  · rfl

theorem netlocSplit_slash2 (rest : List Char) :
    netlocSplit ('/' :: '/' :: rest) = splitNetlocAux rest := rfl

/-- A character that urlsplit strips as WHATWG-unsafe. -/
def unsafeChar (c : Char) : Prop :=
  c = Char.ofNat 9 ∨ c = Char.ofNat 13 ∨ c = Char.ofNat 10

theorem removeUnsafe_eq_self (l : List Char) (h : ∀ d ∈ l, ¬ unsafeChar d) :
    removeUnsafe l = l := by
  unfold removeUnsafe
  rw [List.filter_eq_self]
  intro a ha
  have := h a ha
  unfold unsafeChar at this
  simp only [decide_eq_true_eq]
  exact this

/-- The query-and-fragment tail that urlunsplit appends after the
scheme-and-path part. -/
def assembleTail (u q f : List Char) : List Char :=
  let u1 := if q ≠ [] then u ++ '?' :: q else u
  if f ≠ [] then u1 ++ '#' :: f else u1

theorem assembleTail_cons (c : Char) (u q f : List Char) :
    assembleTail (c :: u) q f = c :: assembleTail u q f := by
  simp only [assembleTail]
  by_cases hq : q = [] <;> by_cases hf : f = [] <;> simp [hq, hf]

theorem assembleTail_exists_tail (u q f : List Char) :
    ∃ t, assembleTail u q f = u ++ t := by
  simp only [assembleTail]
  by_cases hf : f = []
  · rw [if_neg (by simp [hf])]
    by_cases hq : q = []
    · rw [if_neg (by simp [hq])]
      exact ⟨[], by simp⟩
    · rw [if_pos hq]
      exact ⟨'?' :: q, rfl⟩
  · rw [if_pos hf]
    by_cases hq : q = []
    · rw [if_neg (by simp [hq])]
      exact ⟨'#' :: f, rfl⟩
    · rw [if_pos hq]
      exact ⟨'?' :: q ++ '#' :: f, by simp⟩

theorem mem_assembleTail (u q f : List Char) (d : Char)
    (h : d ∈ assembleTail u q f) :
    d ∈ u ∨ d = '?' ∨ d ∈ q ∨ d = '#' ∨ d ∈ f := by
  simp only [assembleTail] at h
  by_cases hf : f = []
  · rw [if_neg (by simp [hf])] at h
    by_cases hq : q = []
    · rw [if_neg (by simp [hq])] at h
      exact Or.inl h
    · rw [if_pos hq] at h
      rcases List.mem_append.mp h with h1 | h1
      · exact Or.inl h1
      · rcases List.mem_cons.mp h1 with h2 | h2
        · exact Or.inr (Or.inl h2)
        · exact Or.inr (Or.inr (Or.inl h2))
  · rw [if_pos hf] at h
    by_cases hq : q = []
    · rw [if_neg (by simp [hq])] at h
      rcases List.mem_append.mp h with h1 | h1
      · exact Or.inl h1
      · rcases List.mem_cons.mp h1 with h2 | h2
        · exact Or.inr (Or.inr (Or.inr (Or.inl h2)))
        · exact Or.inr (Or.inr (Or.inr (Or.inr h2)))
    · rw [if_pos hq] at h
      rcases List.mem_append.mp h with h1 | h1
      · rcases List.mem_append.mp h1 with h2 | h2
        · exact Or.inl h2
        · rcases List.mem_cons.mp h2 with h3 | h3
          · exact Or.inr (Or.inl h3)
          · exact Or.inr (Or.inr (Or.inl h3))
      · rcases List.mem_cons.mp h1 with h2 | h2
        · exact Or.inr (Or.inr (Or.inr (Or.inl h2)))
        · exact Or.inr (Or.inr (Or.inr (Or.inr h2)))

theorem urlunsplit_noscheme (P q f : List Char) :
    urlunsplit ⟨[], [], P, q, f⟩ = assembleTail P q f := by
  simp [urlunsplit, assembleTail]

theorem urlunsplit_scheme_not_netloc (s P q f : List Char) (hs : s ≠ [])
    (hnu : s ∉ uses_netloc) :
    urlunsplit ⟨s, [], P, q, f⟩ = assembleTail (s ++ ':' :: P) q f := by
  simp [urlunsplit, assembleTail, hs, hnu]

theorem urlunsplit_scheme_netloc_head (s P q f : List Char) (hs : s ≠ [])
    (hnu : s ∈ uses_netloc) (hss : startsSlash2 P = false)
    (hhead : P.head? = some '/') :
    urlunsplit ⟨s, [], P, q, f⟩ = assembleTail (s ++ ':' :: '/' :: '/' :: P) q f := by
  simp [urlunsplit, assembleTail, hs, hnu, hss, hhead]

theorem urlunsplit_scheme_netloc_nohead (s P q f : List Char) (hs : s ≠ [])
    (hnu : s ∈ uses_netloc) (hss : startsSlash2 P = false)
    (hne : P ≠ []) (hhead : P.head? ≠ some '/') :
    urlunsplit ⟨s, [], P, q, f⟩ = assembleTail (s ++ ':' :: '/' :: '/' :: '/' :: P) q f := by
  simp [urlunsplit, assembleTail, hs, hnu, hss, hne, hhead]

/-! ### Re-parsing the assembled url -/

theorem startsSlash2_true (t : List Char) : startsSlash2 ('/' :: '/' :: t) = true := rfl

theorem startsSlash2_false_of (c d : Char) (t : List Char) (h : ¬ (c = '/' ∧ d = '/')) :
    startsSlash2 (c :: d :: t) = false := by
  unfold startsSlash2
  split
  · rename_i heq
    simp only [List.cons.injEq] at heq
    exact absurd ⟨heq.1, heq.2.1⟩ h
  · rfl

theorem startsSlash2_cons_cons (c d : Char) (t1 t2 : List Char) :
    startsSlash2 (c :: d :: t1) = startsSlash2 (c :: d :: t2) := by
  by_cases h : c = '/' ∧ d = '/'
  · obtain ⟨h1, h2⟩ := h
    subst h1; subst h2
    rw [startsSlash2_true, startsSlash2_true]
  · rw [startsSlash2_false_of c d t1 h, startsSlash2_false_of c d t2 h]

theorem startsSlash2_assembleTail (P q f : List Char) (hne : P ≠ [])
    (hss : startsSlash2 P = false) :
    startsSlash2 (assembleTail P q f) = false := by
  cases P with
  | nil => exact absurd rfl hne
  | cons p0 P1 =>
    cases P1 with
    | nil =>
      rw [assembleTail_cons]
      simp only [assembleTail]
      by_cases hf : f = []
      · rw [if_neg (by simp [hf])]
        by_cases hq : q = []
        · rw [if_neg (by simp [hq])]
          exact hss
        · rw [if_pos hq]
          show startsSlash2 (p0 :: '?' :: q) = false
          exact startsSlash2_false_of p0 '?' q (by rintro ⟨-, hx⟩; exact absurd hx (by decide))
      · rw [if_pos hf]
        by_cases hq : q = []
        · rw [if_neg (by simp [hq])]
          show startsSlash2 (p0 :: '#' :: f) = false
          exact startsSlash2_false_of p0 '#' f (by rintro ⟨-, hx⟩; exact absurd hx (by decide))
        · rw [if_pos hq]
          show startsSlash2 (p0 :: '?' :: (q ++ '#' :: f)) = false
          exact startsSlash2_false_of p0 '?' _ (by rintro ⟨-, hx⟩; exact absurd hx (by decide))
    | cons p1 P2 =>
      rw [assembleTail_cons, assembleTail_cons]
      rw [startsSlash2_cons_cons p0 p1 (assembleTail P2 q f) P2]
      exact hss

theorem splitFirst_assembleTail_hash (P q f : List Char) (hP : '#' ∉ P) (hq : '#' ∉ q) :
    splitFirst '#' (assembleTail P q f) =
      (if q ≠ [] then P ++ '?' :: q else P, if f ≠ [] then some f else none) := by
  have hnu : '#' ∉ (if q ≠ [] then P ++ '?' :: q else P) := by
    by_cases hqe : q = []
    · rw [if_neg (by simp [hqe])]
      exact hP
    · rw [if_pos hqe]
      intro hm
      rcases List.mem_append.mp hm with h1 | h1
      · exact hP h1
      · rcases List.mem_cons.mp h1 with h2 | h2
        · exact absurd h2 (by decide)
        · exact hq h2
  simp only [assembleTail]
  by_cases hf : f = []
  · rw [if_neg (show ¬ f ≠ [] by simp [hf])]
    rw [if_neg (show ¬ f ≠ [] by simp [hf])]
    exact splitFirst_build_none '#' _ hnu
  · rw [if_pos hf]
    rw [if_pos hf]
    exact splitFirst_build_some '#' _ f hnu

theorem splitFirst_query_part (P q : List Char) (hP : '?' ∉ P) :
    splitFirst '?' (if q ≠ [] then P ++ '?' :: q else P) =
      (P, if q ≠ [] then some q else none) := by
  by_cases hq : q = []
  · rw [if_neg (show ¬ q ≠ [] by simp [hq])]
    rw [if_neg (show ¬ q ≠ [] by simp [hq])]
    exact splitFirst_build_none '?' P hP
  · rw [if_pos hq]
    rw [if_pos hq]
    exact splitFirst_build_some '?' P q hP

theorem reparse_noscheme (P q f : List Char)
    (hNoU : ∀ d ∈ assembleTail P q f, ¬ unsafeChar d)
    (hNS : splitScheme (assembleTail P q f) = none)
    (hss : startsSlash2 (assembleTail P q f) = false)
    (hP1 : '#' ∉ P) (hP2 : '?' ∉ P) (hq1 : '#' ∉ q) :
    urlsplit (assembleTail P q f) = ⟨[], [], P, q, f⟩ := by
  simp only [urlsplit]
  rw [removeUnsafe_eq_self _ hNoU, schemeStep_none _ hNS]
  simp only
  rw [netlocSplit_of_not_slash2 _ hss]
  simp only
  rw [splitFirst_assembleTail_hash P q f hP1 hq1]
  simp only
  rw [splitFirst_query_part P q hP2]
  by_cases hqe : q = [] <;> by_cases hfe : f = [] <;> simp [hqe, hfe]

theorem reparse_scheme (s P q f : List Char) (hOK : SchemeOK s)
    (hNoU : ∀ d ∈ assembleTail P q f, ¬ unsafeChar d)
    (hss : startsSlash2 (assembleTail P q f) = false)
    (hP1 : '#' ∉ P) (hP2 : '?' ∉ P) (hq1 : '#' ∉ q) :
    urlsplit (s ++ ':' :: assembleTail P q f) = ⟨s, [], P, q, f⟩ := by
  have hsu : ∀ d ∈ s ++ ':' :: assembleTail P q f, ¬ unsafeChar d := by
    intro d hd
    rcases List.mem_append.mp hd with h1 | h1
    · have := hOK.2.1 d h1
      intro hu
      rcases hu with hu | hu | hu <;> rw [hu] at this <;> exact absurd this (by decide)
    · rcases List.mem_cons.mp h1 with h2 | h2
      · rw [h2]
        rintro (hu | hu | hu) <;> exact absurd hu (by decide)
      · exact hNoU d h2
  simp only [urlsplit]
  rw [removeUnsafe_eq_self _ hsu,
    schemeStep_some _ _ _ (splitScheme_build s (assembleTail P q f) hOK)]
  simp only
  rw [netlocSplit_of_not_slash2 _ hss]
  simp only
  rw [splitFirst_assembleTail_hash P q f hP1 hq1]
  simp only
  rw [splitFirst_query_part P q hP2]
  by_cases hqe : q = [] <;> by_cases hfe : f = [] <;> simp [hqe, hfe]

theorem reparse_scheme_slashes (s P q f : List Char) (hOK : SchemeOK s)
    (hNoU : ∀ d ∈ assembleTail P q f, ¬ unsafeChar d)
    (hhead : ∃ t, P = '/' :: t)
    (hP1 : '#' ∉ P) (hP2 : '?' ∉ P) (hq1 : '#' ∉ q) :
    urlsplit (s ++ ':' :: '/' :: '/' :: assembleTail P q f) = ⟨s, [], P, q, f⟩ := by
  obtain ⟨t, hPt⟩ := hhead
  have hsu : ∀ d ∈ s ++ ':' :: '/' :: '/' :: assembleTail P q f, ¬ unsafeChar d := by
    intro d hd
    rcases List.mem_append.mp hd with h1 | h1
    · have := hOK.2.1 d h1
      intro hu
      rcases hu with hu | hu | hu <;> rw [hu] at this <;> exact absurd this (by decide)
    · rcases List.mem_cons.mp h1 with h2 | h2
      · rw [h2]
        rintro (hu | hu | hu) <;> exact absurd hu (by decide)
      · rcases List.mem_cons.mp h2 with h3 | h3
        · rw [h3]
          rintro (hu | hu | hu) <;> exact absurd hu (by decide)
        · rcases List.mem_cons.mp h3 with h4 | h4
          · rw [h4]
            rintro (hu | hu | hu) <;> exact absurd hu (by decide)
          · exact hNoU d h4
  simp only [urlsplit]
  rw [removeUnsafe_eq_self _ hsu,
    schemeStep_some _ _ _ (splitScheme_build s ('/' :: '/' :: assembleTail P q f) hOK)]
  simp only
  rw [netlocSplit_slash2]
  rw [hPt, assembleTail_cons, splitNetlocAux_slash]
  simp only
  rw [← assembleTail_cons, ← hPt]
  rw [splitFirst_assembleTail_hash P q f hP1 hq1]
  simp only
  rw [splitFirst_query_part P q hP2]
  by_cases hqe : q = [] <;> by_cases hfe : f = [] <;> simp [hqe, hfe]

/-! ### Properties of the components of any successful parse -/

theorem urlsplit_scheme_eq (url : List Char) :
    (urlsplit url).scheme = (schemeStep (removeUnsafe url)).1 := rfl

theorem urlsplit_netloc_eq (url : List Char) :
    (urlsplit url).netloc = (netlocSplit (schemeStep (removeUnsafe url)).2).1 := rfl

theorem urlsplit_path_eq (url : List Char) :
    (urlsplit url).path =
      (splitFirst '?'
        (splitFirst '#' (netlocSplit (schemeStep (removeUnsafe url)).2).2).1).1 := rfl

theorem urlsplit_query_eq (url : List Char) :
    (urlsplit url).query =
      ((splitFirst '?'
        (splitFirst '#' (netlocSplit (schemeStep (removeUnsafe url)).2).2).1).2).getD [] := rfl

theorem urlsplit_fragment_eq (url : List Char) :
    (urlsplit url).fragment =
      ((splitFirst '#' (netlocSplit (schemeStep (removeUnsafe url)).2).2).2).getD [] := rfl

theorem mem_removeUnsafe_not_unsafe (url : List Char) (d : Char)
    (hd : d ∈ removeUnsafe url) : ¬ unsafeChar d := by
  unfold removeUnsafe at hd
  have := List.of_mem_filter hd
  simp only [decide_eq_true_eq] at this
  exact this

theorem schemeStep_snd_sub (l : List Char) (d : Char)
    (hd : d ∈ (schemeStep l).2) : d ∈ l := by
  unfold schemeStep at hd
  cases hsch : splitScheme l with
  | none => rw [hsch] at hd; exact hd
  | some sr =>
    obtain ⟨s, rest⟩ := sr
    rw [hsch] at hd
    obtain ⟨c, a, hl, -, -, -⟩ := splitScheme_eq_some l s rest hsch
    rw [hl]
    simp only at hd
    simp [hd]

theorem netlocSplit_snd_sub (l : List Char) (d : Char)
    (hd : d ∈ (netlocSplit l).2) : d ∈ l := by
  unfold netlocSplit at hd
  split at hd
  · rename_i rest
    have hsh := (splitNetlocAux_shape rest).1
    have : d ∈ rest := by
      rw [hsh]
      exact List.mem_append_right _ hd
    simp [this]
  · exact hd

theorem pre_mem (x l : List Char) (h : x <+: l) (d : Char) (hd : d ∈ x) : d ∈ l :=
  h.sublist.subset hd

theorem urlsplit_scheme_ok (url : List Char) :
    (urlsplit url).scheme = [] ∨ SchemeOK (urlsplit url).scheme := by
  rw [urlsplit_scheme_eq]
  unfold schemeStep
  cases hsch : splitScheme (removeUnsafe url) with
  | none => exact Or.inl rfl
  | some sr =>
    obtain ⟨s, rest⟩ := sr
    obtain ⟨c, a, hl, hca, hall, hmap⟩ :=
      splitScheme_eq_some (removeUnsafe url) s rest hsch
    right
    simp only
    rw [hmap]
    refine ⟨⟨Char.toLower c, a.map Char.toLower, by simp, char_toLower_alpha c hca⟩, ?_, ?_⟩
    · intro d hd
      simp only [List.map_cons, List.mem_cons, List.mem_map] at hd
      rcases hd with hd | ⟨e, he, hd⟩
      · rw [hd]
        exact char_toLower_scheme c (alpha_schemeChar c hca)
      · rw [← hd]
        exact char_toLower_scheme e (hall e he)
    · rw [List.map_map]
      congr 1
      funext e
      exact char_toLower_idem e

theorem urlsplit_component_props (url : List Char) :
    (∀ d ∈ (urlsplit url).path, ¬ unsafeChar d) ∧
    '#' ∉ (urlsplit url).path ∧ '?' ∉ (urlsplit url).path ∧
    (∀ d ∈ (urlsplit url).query, ¬ unsafeChar d) ∧
    '#' ∉ (urlsplit url).query ∧
    (∀ d ∈ (urlsplit url).fragment, ¬ unsafeChar d) := by
  have hmemU : ∀ d ∈ (netlocSplit (schemeStep (removeUnsafe url)).2).2, ¬ unsafeChar d := by
    intro d hd
    exact mem_removeUnsafe_not_unsafe url d
      (schemeStep_snd_sub _ d (netlocSplit_snd_sub _ d hd))
  have hmemUF : ∀ d ∈ (splitFirst '#' (netlocSplit (schemeStep (removeUnsafe url)).2).2).1,
      ¬ unsafeChar d := by
    intro d hd
    exact hmemU d (pre_mem _ _ (splitFirst_fst_pre '#' _) d hd)
  refine ⟨?_, ?_, ?_, ?_, ?_, ?_⟩
  · rw [urlsplit_path_eq]
    intro d hd
    exact hmemUF d (pre_mem _ _ (splitFirst_fst_pre '?' _) d hd)
  · rw [urlsplit_path_eq]
    intro hd
    exact splitFirst_fst_not_mem '#' _ (pre_mem _ _ (splitFirst_fst_pre '?' _) _ hd)
  · rw [urlsplit_path_eq]
    exact splitFirst_fst_not_mem '?' _
  · rw [urlsplit_query_eq]
    cases hq : (splitFirst '?'
        (splitFirst '#' (netlocSplit (schemeStep (removeUnsafe url)).2).2).1).2 with
    | none => simp
    | some b =>
      simp only [Option.getD_some]
      obtain ⟨heq, -⟩ := splitFirst_eq_some '?' _ _ b (by
        rw [← hq])
      intro d hd
      apply hmemUF d
      rw [heq]
      simp [hd]
  · rw [urlsplit_query_eq]
    cases hq : (splitFirst '?'
        (splitFirst '#' (netlocSplit (schemeStep (removeUnsafe url)).2).2).1).2 with
    | none => simp
    | some b =>
      simp only [Option.getD_some]
      obtain ⟨heq, -⟩ := splitFirst_eq_some '?' _ _ b (by rw [← hq])
      intro hd
      apply splitFirst_fst_not_mem '#' (netlocSplit (schemeStep (removeUnsafe url)).2).2
      rw [heq]
      simp [hd]
  · rw [urlsplit_fragment_eq]
    cases hf : (splitFirst '#' (netlocSplit (schemeStep (removeUnsafe url)).2).2).2 with
    | none => simp
    | some b =>
      simp only [Option.getD_some]
      obtain ⟨heq, -⟩ := splitFirst_eq_some '#' _ _ b (by rw [← hf])
      intro d hd
      apply hmemU d
      rw [heq]
      simp [hd]

theorem startsSlash2_true_shape (l : List Char) (h : startsSlash2 l = true) :
    ∃ rest, l = '/' :: '/' :: rest := by
  unfold startsSlash2 at h
  split at h
  · rename_i rest
    exact ⟨rest, rfl⟩
  · simp at h

/-- When the first parse finds no scheme and no netloc, the path is either
a prefix of the cleaned input, or empty, or starts with a slash (having
passed through the empty-netloc consumption of a leading double slash). -/
theorem urlsplit_path_shape (url : List Char)
    (hs : (urlsplit url).scheme = [])
    (_hn : (urlsplit url).netloc = []) :
    splitScheme (removeUnsafe url) = none ∧
    ((urlsplit url).path <+: removeUnsafe url ∨ (urlsplit url).path = [] ∨
      (urlsplit url).path.head? = some '/') := by
  have hnone : splitScheme (removeUnsafe url) = none := by
    cases hsch : splitScheme (removeUnsafe url) with
    | none => rfl
    | some sr =>
      obtain ⟨s, rest⟩ := sr
      obtain ⟨c, a, hl, hca, hall, hmap⟩ :=
        splitScheme_eq_some (removeUnsafe url) s rest hsch
      rw [urlsplit_scheme_eq] at hs
      rw [schemeStep_some _ _ _ hsch] at hs
      simp only at hs
      rw [hs] at hmap
      simp at hmap
  refine ⟨hnone, ?_⟩
  have hstep : (schemeStep (removeUnsafe url)).2 = removeUnsafe url := by
    rw [schemeStep_none _ hnone]
  by_cases hss : startsSlash2 (removeUnsafe url) = true
  · obtain ⟨rest, hrest⟩ := startsSlash2_true_shape _ hss
    have hnet2 : (netlocSplit (schemeStep (removeUnsafe url)).2).2 =
        (splitNetlocAux rest).2 := by
      rw [hstep, hrest, netlocSplit_slash2]
    rcases (splitNetlocAux_shape rest).2 with hnil | ⟨d, t, hdt, hd⟩
    · right; left
      rw [urlsplit_path_eq, hnet2, hnil]
      simp [splitFirst]
    · by_cases hpe : (urlsplit url).path = []
      · right; left; exact hpe
      · right; right
        have hpre : (urlsplit url).path <+: (splitNetlocAux rest).2 := by
          rw [urlsplit_path_eq, hnet2]
          exact (splitFirst_fst_pre '?' _).trans (splitFirst_fst_pre '#' _)
        have hhead : (urlsplit url).path.head? = (splitNetlocAux rest).2.head? :=
          pre_head _ _ hpre hpe
        rw [hhead, hdt]
        simp only [List.head?_cons, Option.some.injEq]
        rcases hd with hd | hd | hd
        · exact hd
        · exfalso
          have hdm : d ∈ (urlsplit url).path := by
            cases hpp : (urlsplit url).path with
            | nil => exact absurd hpp hpe
            | cons p0 ps =>
              have : p0 = d := by
                rw [hpp] at hhead
                rw [hdt] at hhead
                simpa using hhead
              rw [this]
              simp
          rw [hd] at hdm
          rw [urlsplit_path_eq] at hdm
          exact splitFirst_fst_not_mem '?' _ hdm
        · exfalso
          have hdm : d ∈ (urlsplit url).path := by
            cases hpp : (urlsplit url).path with
            | nil => exact absurd hpp hpe
            | cons p0 ps =>
              have : p0 = d := by
                rw [hpp] at hhead
                rw [hdt] at hhead
                simpa using hhead
              rw [this]
              simp
          rw [hd] at hdm
          have : '#' ∈ (splitFirst '#'
              (netlocSplit (schemeStep (removeUnsafe url)).2).2).1 := by
            rw [urlsplit_path_eq] at hdm
            exact pre_mem _ _ (splitFirst_fst_pre '?' _) _ hdm
          exact splitFirst_fst_not_mem '#' _ this
  · left
    have hnet2 : (netlocSplit (schemeStep (removeUnsafe url)).2).2 = removeUnsafe url := by
      rw [hstep, netlocSplit_of_not_slash2 _ (by simpa using hss)]
    rw [urlsplit_path_eq, hnet2]
    exact (splitFirst_fst_pre '?' _).trans (splitFirst_fst_pre '#' _)

/-! ### transformPath facts -/

theorem dropTrailing_append_sep (sep : Char) (l : List Char) :
    dropTrailing sep (l ++ [sep]) = dropTrailing sep l := by
  induction l with
  | nil => simp [dropTrailing]
  | cons c cs ih =>
    show dropTrailing sep (c :: (cs ++ [sep])) = _
    cases hd : dropTrailing sep cs with
    | nil =>
      rw [dropTrailing_cons_of_nil sep c (cs ++ [sep]) (by rw [ih, hd]),
        dropTrailing_cons_of_nil sep c cs hd]
    | cons d ds =>
      rw [dropTrailing_cons_of_ne_nil sep c (cs ++ [sep]) d ds (by rw [ih, hd]),
        dropTrailing_cons_of_ne_nil sep c cs d ds hd]

theorem rstripMd_append_slash (x : List Char) (hA : endsWithMd x = false)
    (hB : dropTrailing '/' x = x) : rstripMd (x ++ ['/']) = x := by
  simp only [rstripMd]
  rw [dropTrailing_append_sep, hB, hA]
  simp

theorem transformPath_eq (p : List Char) : transformPath p = rstripMd p ++ ['/'] := rfl

theorem transformPath_idem (p : List Char)
    (hA : endsWithMd (rstripMd p) = false)
    (hB : dropTrailing '/' (rstripMd p) = rstripMd p) :
    transformPath (transformPath p) = transformPath p := by
  rw [transformPath_eq p, transformPath_eq (rstripMd p ++ ['/']),
    rstripMd_append_slash _ hA hB]

theorem endsWithMd_slash_cons (x : List Char) (h : endsWithMd x = false) :
    endsWithMd ('/' :: x) = false := by
  unfold endsWithMd at h ⊢
  rw [List.reverse_cons]
  cases hxr : x.reverse with
  | nil => simp
  | cons a t1 =>
    cases t1 with
    | nil => simp
    | cons b t2 =>
      cases t2 with
      | nil =>
        simp only [List.cons_append, List.nil_append]
        split
        · rename_i heq
          simp only [List.cons.injEq] at heq
          exact absurd heq.2.2.1 (by decide)
        · rfl
      | cons c2 t3 =>
        rw [hxr] at h
        simp only [List.cons_append]
        split
        · rename_i heq
          simp only [List.cons.injEq] at heq
          obtain ⟨h1, h2, h3, -⟩ := heq
          rw [h1, h2, h3] at h
          simp at h
        · rfl

theorem rstripMd_slash_cons (x : List Char) (hA : endsWithMd x = false)
    (hB : dropTrailing '/' x = x) (hne : x ≠ []) :
    rstripMd ('/' :: (x ++ ['/'])) = '/' :: x := by
  simp only [rstripMd]
  have h1 : dropTrailing '/' ('/' :: (x ++ ['/'])) = '/' :: x := by
    have h2 : dropTrailing '/' (x ++ ['/']) = x := by
      rw [dropTrailing_append_sep, hB]
    cases hx : x with
    | nil => exact absurd hx hne
    | cons x0 xs =>
      have h2b : dropTrailing '/' ((x0 :: xs) ++ ['/']) = x0 :: xs := by
        rw [← hx]
        exact h2
      exact dropTrailing_cons_of_ne_nil '/' '/' ((x0 :: xs) ++ ['/']) x0 xs h2b
  rw [h1, endsWithMd_slash_cons x hA]
  simp

theorem transformPath_slash_cons (x : List Char) (hA : endsWithMd x = false)
    (hB : dropTrailing '/' x = x) (hne : x ≠ []) :
    transformPath ('/' :: (x ++ ['/'])) = '/' :: (x ++ ['/']) := by
  rw [transformPath_eq, rstripMd_slash_cons x hA hB hne]
  simp

theorem mem_transformPath (p : List Char) (d : Char) (hd : d ∈ transformPath p) :
    d ∈ p ∨ d = '/' := by
  rw [transformPath_eq] at hd
  rcases List.mem_append.mp hd with h1 | h1
  · exact Or.inl (pre_mem _ _ (rstripMd_pre p) d h1)
  · simp at h1
    exact Or.inr h1

theorem reparse_no_scheme_cond (x t u0 : List Char)
    (hsrc : splitScheme u0 = none)
    (hx : x <+: u0 ∨ x = [] ∨ x.head? = some '/') :
    splitScheme (x ++ '/' :: t) = none := by
  apply splitScheme_none_of_not
  intro hSL
  rcases hx with hx | hx | hx
  · obtain ⟨w, hw⟩ := hx
    exact not_schemeLike_of_none _ hsrc (hw ▸ schemeLike_mono x t w hSL)
  · rw [hx] at hSL
    obtain ⟨c, t2, heq, hca⟩ := schemeLike_head _ hSL
    simp only [List.nil_append, List.cons.injEq] at heq
    rw [← heq.1] at hca
    exact absurd hca (by decide)
  · obtain ⟨c, t2, heq, hca⟩ := schemeLike_head _ hSL
    cases hxs : x with
    | nil => rw [hxs] at hx; simp at hx
    | cons x0 xs =>
      have hx0 : x0 = '/' := by
        rw [hxs] at hx
        simpa using hx
      rw [hxs] at heq
      simp only [List.cons_append, List.cons.injEq] at heq
      rw [← heq.1, hx0] at hca
      exact absurd hca (by decide)

theorem string_data_mk (l : List Char) : (String.mk l).data = l := rfl

theorem assembleTail_append (u v q f : List Char) :
    assembleTail (u ++ v) q f = u ++ assembleTail v q f := by
  induction u with
  | nil => simp
  | cons c cs ih =>
    rw [List.cons_append, assembleTail_cons, ih]
    rfl

theorem rewriteHref_of_netloc_nil (u : String) (h : (urlsplit u.data).netloc = []) :
    rewriteHref u = String.mk (urlunsplit
      ⟨(urlsplit u.data).scheme, [], transformPath (urlsplit u.data).path,
       (urlsplit u.data).query, (urlsplit u.data).fragment⟩) := by
  simp only [rewriteHref, h]
  simp

theorem rewriteHref_of_netloc_ne (u : String) (h : (urlsplit u.data).netloc ≠ []) :
    rewriteHref u = u := by
  simp only [rewriteHref]
  rw [if_neg h]

/-- Core of the idempotence argument: under the stated conditions the
second parse of the assembled href reproduces components whose rewrite and
reassembly give back the assembled href. -/
theorem rewrite_second_fixed (u0 s p q f : List Char)
    (hs_ok : s = [] ∨ SchemeOK s)
    (hsrc_none : s = [] → splitScheme u0 = none)
    (hshape : s = [] → (p <+: u0 ∨ p = [] ∨ p.head? = some '/'))
    (hpU : ∀ d ∈ p, ¬ unsafeChar d) (hpH : '#' ∉ p) (hpQ : '?' ∉ p)
    (hqU : ∀ d ∈ q, ¬ unsafeChar d) (hqH : '#' ∉ q)
    (hfU : ∀ d ∈ f, ¬ unsafeChar d)
    (hA : endsWithMd (rstripMd p) = false)
    (hB : dropTrailing '/' (rstripMd p) = rstripMd p)
    (hC : startsSlash2 (transformPath p) = false) :
    (urlsplit (urlunsplit ⟨s, [], transformPath p, q, f⟩)).netloc = [] ∧
    urlunsplit ⟨(urlsplit (urlunsplit ⟨s, [], transformPath p, q, f⟩)).scheme, [],
        transformPath (urlsplit (urlunsplit ⟨s, [], transformPath p, q, f⟩)).path,
        (urlsplit (urlunsplit ⟨s, [], transformPath p, q, f⟩)).query,
        (urlsplit (urlunsplit ⟨s, [], transformPath p, q, f⟩)).fragment⟩ =
      urlunsplit ⟨s, [], transformPath p, q, f⟩ := by
  have hPne : transformPath p ≠ [] := by
    rw [transformPath_eq]
    simp
  have hPH : '#' ∉ transformPath p := by
    intro hm
    rcases mem_transformPath p '#' hm with h2 | h2
    · exact hpH h2
    · exact absurd h2 (by decide)
  have hPQ : '?' ∉ transformPath p := by
    intro hm
    rcases mem_transformPath p '?' hm with h2 | h2
    · exact hpQ h2
    · exact absurd h2 (by decide)
  have hPU : ∀ d ∈ transformPath p, ¬ unsafeChar d := by
    intro d hd
    rcases mem_transformPath p d hd with h2 | h2
    · exact hpU d h2
    · rw [h2]
      rintro (hu | hu | hu) <;> exact absurd hu (by decide)
  have hNoU : ∀ d ∈ assembleTail (transformPath p) q f, ¬ unsafeChar d := by
    intro d hd
    rcases mem_assembleTail _ q f d hd with h | h | h | h | h
    · exact hPU d h
    · rw [h]; rintro (hu | hu | hu) <;> exact absurd hu (by decide)
    · exact hqU d h
    · rw [h]; rintro (hu | hu | hu) <;> exact absurd hu (by decide)
    · exact hfU d h
  have hssT : startsSlash2 (assembleTail (transformPath p) q f) = false :=
    startsSlash2_assembleTail _ q f hPne hC
  have hTP : transformPath (transformPath p) = transformPath p :=
    transformPath_idem p hA hB
  rcases hs_ok with hsE | hsOK
  · -- no scheme: O = assembleTail P q f
    subst hsE
    rw [urlunsplit_noscheme]
    have hNS : splitScheme (assembleTail (transformPath p) q f) = none := by
      obtain ⟨t0, ht0⟩ := assembleTail_exists_tail (transformPath p) q f
      rw [ht0, transformPath_eq, List.append_assoc]
      show splitScheme (rstripMd p ++ '/' :: t0) = none
      apply reparse_no_scheme_cond (rstripMd p) t0 u0 (hsrc_none rfl)
      rcases hshape rfl with h | h | h
      · exact Or.inl ((rstripMd_pre p).trans h)
      · right; left
        rw [h]
        rfl
      · by_cases hxe : rstripMd p = []
        · right; left; exact hxe
        · right; right
          rw [pre_head _ p (rstripMd_pre p) hxe]
          exact h
    have hparse := reparse_noscheme (transformPath p) q f hNoU hNS hssT hPH hPQ hqH
    rw [hparse]
    simp only
    rw [hTP]
    rw [urlunsplit_noscheme]
    exact ⟨trivial, rfl⟩
  · have hsne : s ≠ [] := by
      obtain ⟨⟨hd, tl, hs2, -⟩, -, -⟩ := hsOK
      rw [hs2]
      simp
    by_cases hnu : s ∈ uses_netloc
    · -- scheme in uses_netloc: a double slash is inserted
      by_cases hhead : (transformPath p).head? = some '/'
      · rw [urlunsplit_scheme_netloc_head s _ q f hsne hnu hC hhead]
        have hO : assembleTail (s ++ ':' :: '/' :: '/' :: transformPath p) q f =
            s ++ ':' :: '/' :: '/' :: assembleTail (transformPath p) q f := by
          rw [show s ++ ':' :: '/' :: '/' :: transformPath p =
              (s ++ [':', '/', '/']) ++ transformPath p by simp,
            assembleTail_append]
          simp
        rw [hO]
        obtain ⟨t1, ht1⟩ : ∃ t1, transformPath p = '/' :: t1 := by
          cases hP : transformPath p with
          | nil => exact absurd hP hPne
          | cons c cs =>
            rw [hP] at hhead
            simp at hhead
            exact ⟨cs, by rw [hhead]⟩
        have hparse := reparse_scheme_slashes s (transformPath p) q f hsOK hNoU
          ⟨t1, ht1⟩ hPH hPQ hqH
        rw [hparse]
        simp only
        rw [hTP]
        rw [urlunsplit_scheme_netloc_head s _ q f hsne hnu hC hhead]
        refine ⟨trivial, ?_⟩
        rw [hO]
      · -- path does not start with a slash: one more slash is inserted
        rw [urlunsplit_scheme_netloc_nohead s _ q f hsne hnu hC hPne hhead]
        have hO : assembleTail (s ++ ':' :: '/' :: '/' :: '/' :: transformPath p) q f =
            s ++ ':' :: '/' :: '/' :: assembleTail ('/' :: transformPath p) q f := by
          rw [show s ++ ':' :: '/' :: '/' :: '/' :: transformPath p =
              (s ++ [':', '/', '/']) ++ ('/' :: transformPath p) by simp,
            assembleTail_append]
          simp
        rw [hO]
        have hxne : rstripMd p ≠ [] := by
          intro hxe
          apply hhead
          rw [transformPath_eq, hxe]
          rfl
        obtain ⟨x0, xs, hx⟩ : ∃ x0 xs, rstripMd p = x0 :: xs := by
          cases hxx : rstripMd p with
          | nil => exact absurd hxx hxne
          | cons a b => exact ⟨a, b, rfl⟩
        have hx0 : x0 ≠ '/' := by
          intro hx0e
          apply hhead
          rw [transformPath_eq, hx]
          rw [hx0e]
          rfl
        have hparse := reparse_scheme_slashes s ('/' :: transformPath p) q f hsOK
          (by
            intro d hd
            rcases mem_assembleTail _ q f d hd with h | h | h | h | h
            · rcases List.mem_cons.mp h with h2 | h2
              · rw [h2]; rintro (hu | hu | hu) <;> exact absurd hu (by decide)
              · exact hPU d h2
            · rw [h]; rintro (hu | hu | hu) <;> exact absurd hu (by decide)
            · exact hqU d h
            · rw [h]; rintro (hu | hu | hu) <;> exact absurd hu (by decide)
            · exact hfU d h)
          ⟨transformPath p, rfl⟩
          (by
            intro hm
            rcases List.mem_cons.mp hm with h2 | h2
            · exact absurd h2 (by decide)
            · exact hPH h2)
          (by
            intro hm
            rcases List.mem_cons.mp hm with h2 | h2
            · exact absurd h2 (by decide)
            · exact hPQ h2)
          hqH
        rw [hparse]
        simp only
        have hTP2 : transformPath ('/' :: transformPath p) = '/' :: transformPath p := by
          rw [transformPath_eq p]
          exact transformPath_slash_cons (rstripMd p) hA hB hxne
        rw [hTP2]
        rw [urlunsplit_scheme_netloc_head s ('/' :: transformPath p) q f hsne hnu
          (by
            rw [transformPath_eq, hx]
            show startsSlash2 ('/' :: x0 :: (xs ++ ['/'])) = false
            exact startsSlash2_false_of '/' x0 _ (by rintro ⟨-, hh⟩; exact hx0 hh))
          (by simp)]
        refine ⟨trivial, ?_⟩
        rw [hO]
    · -- scheme not in uses_netloc: plain reassembly
      rw [urlunsplit_scheme_not_netloc s _ q f hsne hnu]
      have hO : assembleTail (s ++ ':' :: transformPath p) q f =
          s ++ ':' :: assembleTail (transformPath p) q f := by
        rw [show s ++ ':' :: transformPath p = (s ++ [':']) ++ transformPath p by simp,
          assembleTail_append]
        simp
      rw [hO]
      have hparse := reparse_scheme s (transformPath p) q f hsOK hNoU hssT hPH hPQ hqH
      rw [hparse]
      simp only
      rw [hTP]
      rw [urlunsplit_scheme_not_netloc s _ q f hsne hnu]
      refine ⟨trivial, ?_⟩
      rw [hO]

/-- C3 (amended): link rewriting is idempotent on every internal
(no-authority) href whose path, after stripping trailing slashes and one
final ".md" suffix, neither still ends in ".md" nor exposes a trailing
slash, and whose rewritten path does not begin with two slashes; in
particular rewriting "foo/", "foo.md" and "foo.md/" all yield "foo/". -/
theorem c3_conditional_idempotence (href : String)
    (hnet : (urlsplit href.data).netloc = [])
    (hA : endsWithMd (rstripMd (urlsplit href.data).path) = false)
    (hB : dropTrailing '/' (rstripMd (urlsplit href.data).path) =
      rstripMd (urlsplit href.data).path)
    (hC : startsSlash2 (transformPath (urlsplit href.data).path) = false) :
    rewriteHref (rewriteHref href) = rewriteHref href ∧
    rewriteHref "foo/" = "foo/" ∧ rewriteHref "foo.md" = "foo/" ∧
    rewriteHref "foo.md/" = "foo/" := by
  refine ⟨?_, by rfl, by rfl, by rfl⟩
  obtain ⟨hpU, hpH, hpQ, hqU, hqH, hfU⟩ := urlsplit_component_props href.data
  have hsok := urlsplit_scheme_ok href.data
  rw [rewriteHref_of_netloc_nil href hnet]
  obtain ⟨hn2, hfix⟩ := rewrite_second_fixed (removeUnsafe href.data)
    (urlsplit href.data).scheme (urlsplit href.data).path
    (urlsplit href.data).query (urlsplit href.data).fragment
    hsok
    (fun hsE => (urlsplit_path_shape href.data hsE hnet).1)
    (fun hsE => (urlsplit_path_shape href.data hsE hnet).2)
    hpU hpH hpQ hqU hqH hfU hA hB hC
  rw [rewriteHref_of_netloc_nil _ (by rw [string_data_mk]; exact hn2)]
  rw [string_data_mk]
  exact congrArg String.mk hfix

/-- Witness for the amended C3 at a concrete internal href with query and
fragment. -/
theorem c3_witness :
    rewriteHref (rewriteHref "x.md?q#f") = rewriteHref "x.md?q#f" ∧
    rewriteHref "foo/" = "foo/" ∧ rewriteHref "foo.md" = "foo/" ∧
    rewriteHref "foo.md/" = "foo/" :=
  c3_conditional_idempotence "x.md?q#f" (by decide) (by decide) (by decide) (by decide)

/-! ### Sanitizer (bleach configuration) -/

/-- Tag whitelist, verbatim from ALLOWED_TAGS in the source. -/
def ALLOWED_TAGS : List String :=
  ["h1", "h2", "h3", "h4", "h5", "h6", "b", "i", "strong", "em", "tt", "p",
   "br", "span", "div", "blockquote", "code", "hr", "ul", "ol", "li", "dd",
   "dt", "img", "a", "sub", "sup", "small", "pre"]

/-- Per-tag attribute whitelist, verbatim from ALLOWED_ATTRS in the source:
id on any tag, src and alt and title on img, href and title on a. -/
def ALLOWED_ATTRS : List (String × List String) :=
  [("*", ["id"]), ("img", ["src", "alt", "title"]), ("a", ["href", "title"])]

/-- The attributes allowed on a given tag: the wildcard list together with
the list registered for the tag itself. -/
def attrsFor (tag : String) : List String :=
  (match ALLOWED_ATTRS.lookup "*" with | some l => l | none => []) ++
  (match ALLOWED_ATTRS.lookup tag with | some l => l | none => [])

def attrAllowed (tag a : String) : Bool := (attrsFor tag).contains a

/-- A node of the rendered HTML document: an element with attributes and
children, a text run, or a comment. -/
inductive HNode where
  | element : String → List (String × String) → List HNode → HNode
  | text : String → HNode
  | comment : String → HNode

mutual

/-- Modelled from the spec: bleach is a third-party library whose code is
not in this repository, so the sanitizer follows the spec contract over the
configuration in the source (strip=True, strip_comments=True, empty style
whitelist): keep text, drop comments, drop a non-whitelisted element
together with its content, and for a whitelisted element keep the tag,
keep exactly its whitelisted attributes, and clean the children. -/
def cleanNode : HNode → List HNode
  | .text s => [.text s]
  | .comment _ => []
  | .element tag attrs children =>
      if ALLOWED_TAGS.contains tag then
        [.element tag (attrs.filter fun p => attrAllowed tag p.1)
          (cleanNodes children)]
      else []

def cleanNodes : List HNode → List HNode
  | [] => []
  | n :: rest => cleanNode n ++ cleanNodes rest

end

mutual

/-- The whitelist invariant on a node: no comment anywhere, every element
tag whitelisted and every attribute whitelisted for its tag. -/
def nodeAllowed : HNode → Bool
  | .text _ => true
  | .comment _ => false
  | .element tag attrs children =>
      ALLOWED_TAGS.contains tag && attrs.all (fun p => attrAllowed tag p.1) &&
      nodesAllowed children

def nodesAllowed : List HNode → Bool
  | [] => true
  | n :: rest => nodeAllowed n && nodesAllowed rest

end

theorem nodesAllowed_append (a b : List HNode) :
    nodesAllowed (a ++ b) = (nodesAllowed a && nodesAllowed b) := by
  induction a with
  | nil => simp [nodesAllowed]
  | cons n rest ih => simp [nodesAllowed, ih, Bool.and_assoc]

mutual

theorem cleanNode_allowed (n : HNode) : nodesAllowed (cleanNode n) = true := by
  cases n with
  | text s => rfl
  | comment s => rfl
  | element tag attrs children =>
      rw [cleanNode]
      by_cases h : ALLOWED_TAGS.contains tag = true
      · rw [if_pos h]
        simp only [nodesAllowed, nodeAllowed, Bool.and_true, h, Bool.true_and]
        rw [Bool.and_eq_true]
        refine And.intro ?_ (cleanNodes_allowed children)
        rw [List.all_eq_true]
        intro p hp
        exact (List.mem_filter.mp hp).2
      · rw [if_neg h]
        rfl

theorem cleanNodes_allowed (l : List HNode) : nodesAllowed (cleanNodes l) = true := by
  cases l with
  | nil => rfl
  | cons n rest =>
      rw [cleanNodes, nodesAllowed_append, cleanNode_allowed n,
        cleanNodes_allowed rest]
      rfl

end

mutual

theorem cleanNode_of_allowed (n : HNode) (h : nodeAllowed n = true) :
    cleanNode n = [n] := by
  cases n with
  | text s => rfl
  | comment s => exact absurd h (by simp [nodeAllowed])
  | element tag attrs children =>
      rw [nodeAllowed] at h
      simp only [Bool.and_eq_true] at h
      obtain ⟨⟨h1, h2⟩, h3⟩ := h
      rw [cleanNode, if_pos h1, cleanNodes_of_allowed children h3,
        List.filter_eq_self.mpr ?_]
      rw [List.all_eq_true] at h2
      exact h2

theorem cleanNodes_of_allowed (l : List HNode) (h : nodesAllowed l = true) :
    cleanNodes l = l := by
  cases l with
  | nil => rfl
  | cons n rest =>
      rw [nodesAllowed] at h
      simp only [Bool.and_eq_true] at h
      rw [cleanNodes, cleanNode_of_allowed n h.1, cleanNodes_of_allowed rest h.2]
      rfl

end

/-- C7: on every document, the sanitizer produces output satisfying the
whitelist invariant (only whitelisted tags, only per-tag whitelisted
attributes, no comments); a comment and a non-whitelisted element are
removed entirely, the latter with all its content; and a document already
satisfying the invariant passes through verbatim. -/
theorem c7_sanitizer_whitelist (n : HNode) (tag s : String)
    (attrs : List (String × String)) (children : List HNode)
    (hbad : ALLOWED_TAGS.contains tag = false) :
    nodesAllowed (cleanNode n) = true ∧
    cleanNode (.comment s) = [] ∧
    cleanNode (.element tag attrs children) = [] ∧
    (nodeAllowed n = true → cleanNode n = [n]) := by
  refine ⟨cleanNode_allowed n, rfl, ?_, fun h => cleanNode_of_allowed n h⟩
  rw [cleanNode, if_neg ?_]
  rw [hbad]
  exact Bool.false_ne_true

/-- Witness for C7: an anchor carrying a style attribute and a comment
child is cleaned to the whitelist, a script element vanishes with its
content, and a fully whitelisted paragraph passes through verbatim. -/
theorem c7_witness :
    nodesAllowed (cleanNode (HNode.element "a" [("href", "x"), ("style", "s")]
      [HNode.comment "c"])) = true ∧
    cleanNode (HNode.element "script" [] [HNode.text "alert"]) = [] ∧
    cleanNode (HNode.element "p" [("id", "t")] [HNode.text "hello"]) =
      [HNode.element "p" [("id", "t")] [HNode.text "hello"]] :=
  ⟨(c7_sanitizer_whitelist
      (HNode.element "a" [("href", "x"), ("style", "s")] [HNode.comment "c"])
      "script" "c" [] [] (by decide)).1,
   (c7_sanitizer_whitelist (HNode.text "") "script" "c" []
      [HNode.text "alert"] (by decide)).2.2.1,
   (c7_sanitizer_whitelist (HNode.element "p" [("id", "t")] [HNode.text "hello"])
      "script" "c" [] [] (by decide)).2.2.2 (by decide)⟩

end DocServer
